import Mathlib

/-!
Verification of the eenv secret-lifecycle manager against its specification.

The Rust sources are shallowly embedded: byte sequences are `List Nat`,
strings are `List Char`, fallible operations return `Except` or `Option`,
and file-system effects are made explicit as values (content before /
content after).  Third-party primitives (the XChaCha20Poly1305 cipher, the
blake3 hash, the `ignore` crate's directory walker, `serde_json`) are not
part of the repository; they are embedded as parameters or as models of
their documented contracts, and each such model is marked in its doc
comment.
-/

namespace Eenv

/-! ### String primitives (models of Rust `str` methods) -/

/-- Whitespace test, model of the character class used by Rust `str::trim`. -/
def isWs (c : Char) : Bool := c.isWhitespace

/-- Model of Rust `str::trim_start`. -/
def trimLeft (s : List Char) : List Char := s.dropWhile isWs

/-- Model of Rust `str::trim_end`. -/
def trimRight (s : List Char) : List Char := (s.reverse.dropWhile isWs).reverse

/-- Model of Rust `str::trim`: drop leading and trailing whitespace. -/
def trim (s : List Char) : List Char := trimRight (trimLeft s)

/-- Model of Rust `str::split_once(c)`: the parts strictly before and after
the first occurrence of `c`, or `none` when `c` does not occur. -/
def splitOnce (s : List Char) (c : Char) : Option (List Char × List Char) :=
  if c ∈ s then
    some (s.takeWhile (fun a => decide (¬ a = c)),
          (s.dropWhile (fun a => decide (¬ a = c))).drop 1)
  else none

/-! ### SkeletonExtractor (src/examples.rs, `extract_env_skeletons`) -/

/-- The per-line transform performed by the loop body of
`extract_env_skeletons` in src/examples.rs: blank lines become empty,
comment lines are kept, `KEY=VALUE` lines become `KEY=` via `split_once('=')`
with the key trimmed, anything else is kept verbatim. -/
def skeleton_line (line : List Char) : List Char :=
  let trimmed := trim line
  if trimmed = [] then []
  else if trimmed.head? = some '#' then line
  else
    match splitOnce line '=' with
    | some (key, _value) => trim key ++ ['=']
    | none => line

/-- Embedding of `extract_env_skeletons` (src/examples.rs) for one file,
read as a list of lines; the Rust loop pushes one transformed line per
input line. -/
def extract_env_skeletons : List (List Char) → List (List Char)
  | [] => []
  | line :: rest => skeleton_line line :: extract_env_skeletons rest

/-! ### FileClassifier (src/envscan.rs) -/

/-- Model of `Path::file_name` on the canonical absolute file paths produced
by the walk: the final path segment, i.e. the longest slash-free suffix. -/
def fileName (p : List Char) : List Char :=
  (p.reverse.takeWhile (fun c => decide (¬ c = '/'))).reverse

/-- Model of Rust `str::ends_with`. -/
def endsWith (s suf : List Char) : Bool := List.isSuffixOf suf s

/-- Model of Rust `str::starts_with` for a string pattern. -/
def startsWith (s pre : List Char) : Bool := List.isPrefixOf pre s

/-- Lexicographic order on paths, standing in for the `Ord` instance used by
`Vec::sort` in src/envscan.rs; only the resulting element set matters to the
claims. -/
def lexLe : List Char → List Char → Bool
  | [], _ => true
  | _ :: _, [] => false
  | a :: xs, b :: ys => if a = b then lexLe xs ys else decide (a < b)

/-- Insertion used by `sortPaths`. -/
def insertLe (x : List Char) : List (List Char) → List (List Char)
  | [] => [x]
  | y :: ys => if lexLe x y then x :: y :: ys else y :: insertLe x ys

/-- Model of `Vec::sort` on paths (insertion sort; the claims depend only on
membership, which any sort preserves). -/
def sortPaths : List (List Char) → List (List Char)
  | [] => []
  | x :: xs => insertLe x (sortPaths xs)

/-- Model of `Vec::dedup`: remove consecutive duplicates. -/
def dedupList : List (List Char) → List (List Char)
  | [] => []
  | [a] => [a]
  | a :: b :: rest => if a = b then dedupList (b :: rest) else a :: dedupList (b :: rest)

/-- The classification loop of `split_env_files` (src/envscan.rs): filename
ending `.example` goes to the example list, else ending `.enc` to the
encrypted list, else to the real list, preserving input order. -/
def splitLoop : List (List Char) → List (List Char) × List (List Char) × List (List Char)
  | [] => ([], [], [])
  | p :: rest =>
    let (real, examples, encs) := splitLoop rest
    if endsWith (fileName p) (".example".toList) then (real, p :: examples, encs)
    else if endsWith (fileName p) (".enc".toList) then (real, examples, p :: encs)
    else (p :: real, examples, encs)

/-- Embedding of `split_env_files` (src/envscan.rs): sort, dedup, then
classify each path by its filename suffix. -/
def split_env_files (files : List (List Char)) :
    List (List Char) × List (List Char) × List (List Char) :=
  splitLoop (dedupList (sortPaths files))

/-! ### CryptoEngine (src/crypto.rs) -/

/-- The 5-byte envelope magic `b"EENV1"` from src/crypto.rs. -/
def MAGIC : List Nat := [69, 69, 78, 86, 49]

/-- Parameter standing for a keyed XChaCha20Poly1305 instance (the
`chacha20poly1305` crate is outside the repository).  `enc nonce plaintext`
yields ciphertext-with-tag, `dec nonce data` authenticates and decrypts. -/
structure AEAD where
  enc : List Nat → List Nat → List Nat
  dec : List Nat → List Nat → Option (List Nat)

/-- Embedding of `encrypt_file_to_enc` (src/crypto.rs): the bytes written to
the `.enc` file are `MAGIC ‖ nonce ‖ aead.encrypt(nonce, plaintext)`; the
24-byte random nonce is a parameter. -/
def encrypt_file_to_enc (aead : AEAD) (nonce : List Nat) (plaintext : List Nat) : List Nat :=
  MAGIC ++ nonce ++ aead.enc nonce plaintext

/-- Embedding of `decrypt_file_from_enc` (src/crypto.rs): reject inputs
shorter than `5+24+16`, reject a wrong magic, split off the 24-byte nonce,
and authenticate-decrypt the remainder; the plaintext is returned for the
atomic write that the Rust code performs on success. -/
def decrypt_file_from_enc (aead : AEAD) (data : List Nat) : Except String (List Nat) :=
  if data.length < MAGIC.length + 24 + 16 then .error "enc file too short"
  else if ¬ data.take MAGIC.length = MAGIC then .error "bad magic/version"
  else
    match aead.dec ((data.drop MAGIC.length).take 24) (data.drop (MAGIC.length + 24)) with
    | some plaintext => .ok plaintext
    | none => .error "decrypt failed (wrong key?)"

/-- The full effect of `decrypt_file_from_enc` on the destination file:
`write_bytes_atomic dst` runs only after a successful decrypt, so on any
error the destination keeps its prior state. -/
def decrypt_to_dst (aead : AEAD) (data : List Nat) (dstBefore : Option (List Nat)) :
    Except String Unit × Option (List Nat) :=
  match decrypt_file_from_enc aead data with
  | .ok plaintext => (.ok (), some plaintext)
  | .error e => (.error e, dstBefore)

/-- Embedding of `aead_from_key_str` (src/crypto.rs): reject a key whose
trim is empty, otherwise key the cipher with the hash of the **raw** key
string.  `family` stands for `XChaCha20Poly1305::new` and `H` for `blake3::hash`,
both outside the repository. -/
def aead_from_key_str (family : List Nat → AEAD) (H : List Char → List Nat)
    (key_str : List Char) : Except String AEAD :=
  if trim key_str = [] then .error "empty key"
  else .ok (family (H key_str))

/-- One discovered `.enc` artifact as seen by the workflows in
src/crypto.rs: its envelope bytes and the prior content of its decryption
target `dec_output_path` (`none` when `dst.exists()` is false). -/
structure EncItem where
  data : List Nat
  dstBefore : Option (List Nat)
  deriving DecidableEq

/-- Boolean success test on `Except`, model of `Result::is_ok`. -/
def isOk {ε α : Type} : Except ε α → Bool
  | .ok _ => true
  | .error _ => false

/-- The per-artifact step of the decrypt-all loop in `handle_enc_workflow`
(src/crypto.rs): when the target exists the artifact is skipped, otherwise
the target receives the plaintext on success and stays absent when the
decrypt fails (the failure is only logged). -/
def handle_enc_item (aead : AEAD) (it : EncItem) : Option (List Nat) :=
  match it.dstBefore with
  | some content => some content
  | none =>
    match decrypt_file_from_enc aead it.data with
    | .ok plaintext => some plaintext
    | .error _ => none

/-- Embedding of the loop of `handle_enc_workflow` (src/crypto.rs): the
resulting target-file state for each discovered artifact. -/
def handle_enc_workflow (aead : AEAD) (items : List EncItem) : List (Option (List Nat)) :=
  items.map (handle_enc_item aead)

/-- The validation loop of `bootstrap_key_and_decrypt` (src/crypto.rs): try
each artifact until one decrypts; both branches of the `dst.exists()` split
test the same decrypt result (they differ only in scratch-file handling). -/
def validateLoop (aead : AEAD) : List EncItem → Bool
  | [] => false
  | it :: rest =>
    match it.dstBefore with
    | some _ => if isOk (decrypt_file_from_enc aead it.data) then true else validateLoop aead rest
    | none => if isOk (decrypt_file_from_enc aead it.data) then true else validateLoop aead rest

/-- The persistent effects of `bootstrap_key_and_decrypt`: its result, and
whether `write_eenv_config_with_key` and `ensure_gitignore_has_config` ran. -/
structure BootOutcome where
  result : Except String Unit
  configWritten : Bool
  gitignoreEnsured : Bool

/-- Embedding of `bootstrap_key_and_decrypt` (src/crypto.rs): derive the
cipher from the operator-supplied key, fail when no artifacts were
discovered, fail when no artifact decrypts; only on a validated key are the
config file written and the ignore-file updated (then the decrypt-all
workflow runs). -/
def bootstrap_key_and_decrypt (family : List Nat → AEAD) (H : List Char → List Nat)
    (key_str : List Char) (encs : List EncItem) : BootOutcome :=
  match aead_from_key_str family H key_str with
  | .error e => ⟨.error e, false, false⟩
  | .ok aead =>
    if encs = [] then ⟨.error "no .env*.enc files found", false, false⟩
    else if validateLoop aead encs then ⟨.ok (), true, true⟩
    else ⟨.error "provided key did not decrypt any .env*.enc", false, false⟩

/-! ### Key derivation (src/config.rs `read_eenv_key`, src/crypto.rs
`aead_from_key_str`) -/

/-- The key-derivation tail of `read_eenv_key` (src/config.rs): the `"key"`
field read from the config is **trimmed**, rejected when empty, and the
trimmed string is hashed (`H` stands for `blake3::hash`). -/
def read_eenv_key_derive (H : List Char → List Nat) (key_field : List Char) :
    Except String (List Nat) :=
  let key_str := trim key_field
  if key_str = [] then .error "empty key"
  else .ok (H key_str)

/-- The key bytes `aead_from_key_str` (src/crypto.rs) feeds to the cipher:
the **raw** key string is hashed after checking that its trim is nonempty. -/
def aead_key_bytes (H : List Char → List Nat) (key_str : List Char) :
    Except String (List Nat) :=
  if trim key_str = [] then .error "empty key"
  else .ok (H key_str)

/-! ### GitignoreReconciler (src/gitignore.rs) -/

/-- Split a text on every newline character; always at least one piece, a
trailing newline yields a final empty piece. -/
def splitNl : List Char → List (List Char)
  | [] => [[]]
  | c :: rest =>
    if c = '\n' then [] :: splitNl rest
    else
      match splitNl rest with
      | [] => [[c]]
      | p :: ps => (c :: p) :: ps

/-- Strip one trailing carriage return, as Rust `str::lines` does for each
line that was terminated by a newline. -/
def stripCr (l : List Char) : List Char :=
  if l.getLast? = some '\x0d' then l.dropLast else l

/-- Model of Rust `str::lines`: split on `'\n'`, drop the final empty piece
produced by a trailing newline, and strip a `'\r'` preceding each `'\n'`
(the final unterminated line keeps a trailing `'\r'`). -/
def linesOf (s : List Char) : List (List Char) :=
  match (splitNl s).getLast? with
  | some [] => (splitNl s).dropLast.map stripCr
  | some l => (splitNl s).dropLast.map stripCr ++ [l]
  | none => []

/-- Model of the trailing-newline fixup in src/gitignore.rs:
`if !s.ends_with('\n') { s.push('\n') }`. -/
def ensureNl (s : List Char) : List Char :=
  if s.getLast? = some '\n' then s else s ++ ['\n']

/-- Model of `Vec::join("\n")`. -/
def joinLines : List (List Char) → List Char
  | [] => []
  | [l] => l
  | l :: ls => l ++ '\n' :: joinLines ls

/-- `lines.join("\n")` followed by the trailing-newline fixup, exactly the
new-text assembly in `fix_gitignore_from_found`. -/
def joinNl (lines : List (List Char)) : List Char :=
  ensureNl (joinLines lines)

/-- Embedding of `pattern_core` (src/gitignore.rs): the part of a line
before any `'#'`, trimmed. -/
def pattern_core (line : List Char) : List Char :=
  trim (line.takeWhile (fun c => decide (¬ c = '#')))

/-- The fixed list `banned_env_ignores()` from src/gitignore.rs. -/
def bannedList : List (List Char) :=
  [".env.example".toList, ".env*.example".toList, ".env.*.example".toList,
   "*.env.example".toList, ".env.enc".toList, ".env*.enc".toList,
   ".env.*.enc".toList, "*.env.enc".toList]

/-- The retain predicate of `fix_gitignore_from_found`: a line survives
unless its nonempty core is one of the banned patterns. -/
def keepLine (l : List Char) : Bool :=
  if pattern_core l ≠ [] ∧ pattern_core l ∈ bannedList then false else true

/-- Result of the reconciliation, as in src/gitignore.rs, plus the text the
ignore-file holds afterwards (it is written only when `changed`, and equals
the old text otherwise, so `newText` is the post-state either way). -/
structure GitignoreEdit where
  added : List (List Char)
  removed : List (List Char)
  changed : Bool
  newText : List Char
  deriving DecidableEq

/-- The `lines.retain(..)` result of `fix_gitignore_from_found`: the lines
of the ignore file that survive the banned-pattern removal. -/
def keptLines (original : List Char) : List (List Char) :=
  (linesOf original).filter keepLine

/-- The lines collected into `removed` during the retain pass. -/
def removedLines (original : List Char) : List (List Char) :=
  (linesOf original).filter (fun l => ! keepLine l)

/-- The required patterns not already present among the kept lines' cores
(`existing.contains(r)` in src/gitignore.rs compares the raw required
pattern against the line cores). -/
def missingPats (required : List (List Char)) (original : List Char) : List (List Char) :=
  required.filter (fun r => decide (¬ r ∈ (keptLines original).map pattern_core))

/-- The final line list assembled by `fix_gitignore_from_found`: when
patterns are missing, a separating blank line (unless the last kept line is
already blank or there are no lines), the `# added by eenv` header, and the
missing patterns are appended. -/
def assembledLines (required : List (List Char)) (original : List Char) : List (List Char) :=
  if missingPats required original = [] then keptLines original
  else
    (match (keptLines original).getLast? with
     | some lastLine =>
       if trim lastLine ≠ [] then keptLines original ++ [[]] else keptLines original
     | none => keptLines original)
      ++ ("# added by eenv".toList :: missingPats required original)

/-- The body of `fix_gitignore_from_found` (src/gitignore.rs) after the
required pattern set has been computed: remove banned lines, find the
required patterns missing from the remaining cores, append them under the
`# added by eenv` header, and report whether the assembled text differs
from the original. -/
def fix_gitignore_core (required : List (List Char)) (original : List Char) : GitignoreEdit :=
  { added := missingPats required original,
    removed := removedLines original,
    changed := decide (¬ joinNl (assembledLines required original) = original),
    newText := joinNl (assembledLines required original) }

/-- Model of `.replace('\\', "/")` in `to_gitignore_rel_pattern`. -/
def slashMap (s : List Char) : List Char :=
  s.map (fun c => if c = '\\' then '/' else c)

/-- Model of `.replace(' ', "\\ ")` in `to_gitignore_rel_pattern`. -/
def escapeSpaces (s : List Char) : List Char :=
  s.flatMap (fun c => if c = ' ' then ['\\', ' '] else [c])

/-- Embedding of `to_gitignore_rel_pattern` (src/gitignore.rs) on the
string model of paths: strip the root prefix (with its separator),
slash-normalize, map an empty remainder to "/", and escape spaces. -/
def to_gitignore_rel_pattern (root abs : List Char) : Option (List Char) :=
  if List.isPrefixOf root abs then
    let rel := slashMap ((abs.drop root.length).dropWhile (fun c => decide (c = '/')))
    some (if rel = [] then ['/'] else escapeSpaces rel)
  else none

/-- The per-file deny-patterns collected by the loop of
`fix_gitignore_from_found`: paths with an `.example` or `.enc` filename are
skipped, as are paths outside the root. -/
def requiredPats (root : List Char) : List (List Char) → List (List Char)
  | [] => []
  | abs :: rest =>
    if endsWith (fileName abs) (".example".toList) ∨ endsWith (fileName abs) (".enc".toList)
    then requiredPats root rest
    else
      match to_gitignore_rel_pattern root abs with
      | some pat => pat :: requiredPats root rest
      | none => requiredPats root rest

/-- The required pattern set of `fix_gitignore_from_found`: one relative
deny-pattern per discovered plaintext env file, plus `eenv.config.json`;
the `BTreeSet` is modelled by sorting and removing duplicates. -/
def requiredSet (root : List Char) (real_env_files : List (List Char)) : List (List Char) :=
  dedupList (sortPaths ("eenv.config.json".toList :: requiredPats root real_env_files))

/-- Embedding of `fix_gitignore_from_found` (src/gitignore.rs): `root` is
the repository root located by `find_repo_root`, `original` the current
ignore-file content (empty when the file is absent). -/
def fix_gitignore_from_found (root : List Char) (real_env_files : List (List Char))
    (original : List Char) : GitignoreEdit :=
  fix_gitignore_core (requiredSet root real_env_files) original

/-! ### ConfigManager (src/config.rs), with a model of the `serde_json`
fragment it uses -/

/-- JSON values, the model of `serde_json::Value` (numbers restricted to
integers, the only numeric shape the claims exercise). -/
inductive Json where
  | null
  | bool (b : Bool)
  | num (n : Int)
  | str (s : List Char)
  | arr (xs : List Json)
  | obj (fields : List (List Char × Json))

/-- JSON insignificant whitespace. -/
def jsonWs (c : Char) : Bool :=
  decide (c = ' ' ∨ c = '\n' ∨ c = '\t' ∨ c = '\x0d')

/-- Skip JSON whitespace. -/
def skipWs (s : List Char) : List Char := s.dropWhile jsonWs

/-- Parse the body of a JSON string literal (opening quote already
consumed), honouring the escapes the configs at hand can contain; returns
the decoded text and the remainder after the closing quote.  Model of the
`serde_json` string parser. -/
def parseStrLit : Nat → List Char → Option (List Char × List Char)
  | 0, _ => none
  | _, [] => none
  | fuel + 1, c :: rest =>
    if c = '"' then some ([], rest)
    else if c = '\\' then
      match rest with
      | [] => none
      | e :: rest2 =>
        let unesc : Option Char :=
          if e = '"' then some '"'
          else if e = '\\' then some '\\'
          else if e = '/' then some '/'
          else if e = 'n' then some '\n'
          else if e = 't' then some '\t'
          else if e = 'r' then some '\x0d'
          else none
        match unesc with
        | some d =>
          match parseStrLit fuel rest2 with
          | some (s, r) => some (d :: s, r)
          | none => none
        | none => none
    else
      match parseStrLit fuel rest with
      | some (s, r) => some (c :: s, r)
      | none => none

/-- Digit run to a natural number. -/
def digitsVal (ds : List Char) : Nat :=
  ds.foldl (fun acc d => acc * 10 + (d.toNat - 48)) 0

/-- Parse a JSON integer (the only numeric form the modelled configs use). -/
def parseNum (s : List Char) : Option (Int × List Char) :=
  let (neg, s1) := match s with
    | '-' :: r => (true, r)
    | _ => (false, s)
  let ds := s1.takeWhile Char.isDigit
  if ds = [] then none
  else
    let v : Int := Int.ofNat (digitsVal ds)
    some (if neg then -v else v, s1.dropWhile Char.isDigit)

mutual

/-- Recursive-descent JSON value parser (fuel-indexed), model of
`serde_json::from_str` on the fragment the config files use. -/
def parseValue : Nat → List Char → Option (Json × List Char)
  | 0, _ => none
  | fuel + 1, s =>
    match skipWs s with
    | [] => none
    | c :: rest =>
      if c = '{' then
        match skipWs rest with
        | '}' :: r2 => some (.obj [], r2)
        | r1 => parseFields fuel r1 []
      else if c = '[' then
        match skipWs rest with
        | ']' :: r2 => some (.arr [], r2)
        | r1 => parseElems fuel r1 []
      else if c = '"' then
        match parseStrLit (rest.length + 1) rest with
        | some (str, r) => some (.str str, r)
        | none => none
      else if c = 't' then
        if List.isPrefixOf "rue".toList rest then some (.bool true, rest.drop 3) else none
      else if c = 'f' then
        if List.isPrefixOf "alse".toList rest then some (.bool false, rest.drop 4) else none
      else if c = 'n' then
        if List.isPrefixOf "ull".toList rest then some (.null, rest.drop 3) else none
      else
        match parseNum (c :: rest) with
        | some (v, r) => some (.num v, r)
        | none => none

/-- Parse the fields of a JSON object, after the opening brace (nonempty
case). -/
def parseFields : Nat → List Char → List (List Char × Json) →
    Option (Json × List Char)
  | 0, _, _ => none
  | fuel + 1, s, acc =>
    match skipWs s with
    | '"' :: r1 =>
      match parseStrLit (r1.length + 1) r1 with
      | some (name, r2) =>
        match skipWs r2 with
        | ':' :: r3 =>
          match parseValue fuel r3 with
          | some (v, r4) =>
            match skipWs r4 with
            | ',' :: r5 => parseFields fuel r5 (acc ++ [(name, v)])
            | '}' :: r5 => some (.obj (acc ++ [(name, v)]), r5)
            | _ => none
          | none => none
        | _ => none
      | none => none
    | _ => none

/-- Parse the elements of a JSON array, after the opening bracket (nonempty
case). -/
def parseElems : Nat → List Char → List Json → Option (Json × List Char)
  | 0, _, _ => none
  | fuel + 1, s, acc =>
    match parseValue fuel s with
    | some (v, r1) =>
      match skipWs r1 with
      | ',' :: r2 => parseElems fuel r2 (acc ++ [v])
      | ']' :: r2 => some (.arr (acc ++ [v]), r2)
      | _ => none
    | none => none

end

/-- Model of `serde_json::from_str::<Value>`: parse one value and require
only whitespace to follow. -/
def parseJson (s : List Char) : Option Json :=
  match parseValue (s.length + 1) s with
  | some (v, rest) => if skipWs rest = [] then some v else none
  | none => none

/-- JSON string escaping as performed by the `serde_json` serializer. -/
def escapeJson (s : List Char) : List Char :=
  s.flatMap (fun c =>
    if c = '"' then ['\\', '"']
    else if c = '\\' then ['\\', '\\']
    else if c = '\n' then ['\\', 'n']
    else if c = '\t' then ['\\', 't']
    else if c = '\x0d' then ['\\', 'r']
    else [c])

/-- Integer to decimal digits. -/
def intDigits (n : Int) : List Char :=
  (if n < 0 then ['-'] else []) ++ Nat.toDigits 10 n.natAbs

/-- Indentation for the pretty printer. -/
def indentSp (n : Nat) : List Char := List.replicate n ' '

mutual

/-- Model of `serde_json::to_string_pretty` (two-space indentation). -/
def prettyJson (ind : Nat) : Json → List Char
  | .null => "null".toList
  | .bool true => "true".toList
  | .bool false => "false".toList
  | .num n => intDigits n
  | .str s => '"' :: escapeJson s ++ ['"']
  | .arr [] => ['[', ']']
  | .arr (x :: xs) =>
    ['[', '\n'] ++ prettyElems ind (x :: xs) ++ ['\n'] ++ indentSp ind ++ [']']
  | .obj [] => ['{', '}']
  | .obj (f :: fs) =>
    ['{', '\n'] ++ prettyFields ind (f :: fs) ++ ['\n'] ++ indentSp ind ++ ['}']

/-- Pretty-printed array elements, comma-and-newline separated. -/
def prettyElems (ind : Nat) : List Json → List Char
  | [] => []
  | [x] => indentSp (ind + 2) ++ prettyJson (ind + 2) x
  | x :: y :: xs =>
    indentSp (ind + 2) ++ prettyJson (ind + 2) x ++ [',', '\n'] ++ prettyElems ind (y :: xs)

/-- Pretty-printed object fields, comma-and-newline separated. -/
def prettyFields (ind : Nat) : List (List Char × Json) → List Char
  | [] => []
  | [(k, v)] =>
    indentSp (ind + 2) ++ '"' :: escapeJson k ++ ['"', ':', ' '] ++ prettyJson (ind + 2) v
  | (k, v) :: f :: fs =>
    indentSp (ind + 2) ++ '"' :: escapeJson k ++ ['"', ':', ' '] ++ prettyJson (ind + 2) v
      ++ [',', '\n'] ++ prettyFields ind (f :: fs)

end

/-- `Value::get` on an object's field list. -/
def jsonGet (fields : List (List Char × Json)) (name : List Char) : Option Json :=
  match fields.find? (fun f => decide (f.1 = name)) with
  | some f => some f.2
  | none => none

/-- `as_object_mut().insert(name, v)`: replace the field when present,
append it otherwise. -/
def objInsert (fields : List (List Char × Json)) (name : List Char) (v : Json) :
    List (List Char × Json) :=
  if (fields.find? (fun f => decide (f.1 = name))).isSome then
    fields.map (fun f => if f.1 = name then (name, v) else f)
  else fields ++ [(name, v)]

/-- Embedding of the literal config template
`format!("{{\n  \"key\": \"{}\"\n}}\n", key)` used by `ensure_eenv_config`
and `write_eenv_config_with_key` (src/config.rs); note the key is spliced
in with **no JSON escaping**. -/
def config_template (key : List Char) : List Char :=
  "\x7b\n  \"key\": \"".toList ++ key ++ "\"\n\x7d\n".toList

/-- The four statuses of `ensure_eenv_config` (src/config.rs). -/
inductive ConfigStatus where
  | Created
  | Valid
  | FixedMissingKey
  | RewrittenFromInvalid
  deriving DecidableEq

/-- Outcome of `ensure_eenv_config`: the status, the config-file content
afterwards, and the content of the timestamped backup when one was made. -/
structure EnsureResult where
  status : ConfigStatus
  newContent : List Char
  backupContent : Option (List Char)
  deriving DecidableEq

/-- Embedding of `validate_eenv_config` (src/config.rs): false when the
file is absent, unparsable, not an object, or its `key` field is not a
nonempty string. -/
def validate_eenv_config (content : Option (List Char)) : Bool :=
  match content with
  | none => false
  | some text =>
    match parseJson text with
    | some (.obj fields) =>
      match jsonGet fields ("key".toList) with
      | some (.str s) => decide (¬ s = [])
      | _ => false
    | _ => false

/-- Embedding of `ensure_eenv_config` (src/config.rs).  `prior` is the
config's content (absent = `none`); `genKey` stands for the random
44-alphanumeric `generate_key()`; `promptKeyRaw` is the operator's raw
line, which `prompt_for_key` trims and rejects when empty. -/
def ensure_eenv_config (genKey promptKeyRaw : List Char) (prior : Option (List Char)) :
    Except String EnsureResult :=
  match prior with
  | none => .ok ⟨.Created, config_template genKey, none⟩
  | some text =>
    match parseJson text with
    | some v =>
      match v with
      | .obj fields =>
        let needsKey :=
          match jsonGet fields ("key".toList) with
          | some (.str s) => decide (s = [])
          | _ => true
        if needsKey then
          let fields2 := objInsert fields ("key".toList) (.str genKey)
          .ok ⟨.FixedMissingKey, ensureNl (prettyJson 0 (.obj fields2)), none⟩
        else .ok ⟨.Valid, text, none⟩
      | _ => .ok ⟨.RewrittenFromInvalid, config_template genKey, some text⟩
    | none =>
      let key := trim promptKeyRaw
      if key = [] then .error "empty key not allowed"
      else .ok ⟨.RewrittenFromInvalid, config_template key, some text⟩

/-! ### Directory walk (src/envscan.rs `find_env_files_recursive`), with a
model of the `ignore` crate's `WalkBuilder` -/

/-- The filter toggles of the `ignore` crate's `WalkBuilder`, model of that
third-party builder's documented state. -/
structure WalkConfig where
  hidden : Bool
  parents : Bool
  ignoreFiles : Bool
  gitIgnore : Bool
  gitGlobal : Bool
  gitExclude : Bool
  followLinks : Bool
  customIgnoreNames : List (List Char)
  deriving DecidableEq

/-- `WalkBuilder` defaults per the `ignore` crate: all standard filters on,
links not followed, no custom ignore filenames. -/
def defaultWalkConfig : WalkConfig :=
  ⟨true, true, true, true, true, true, false, []⟩

/-- Model of `WalkBuilder::standard_filters(b)`: sets `hidden`, `parents`,
`ignore`, `git_ignore`, `git_global` and `git_exclude` together. -/
def standardFilters (b : Bool) (c : WalkConfig) : WalkConfig :=
  { c with hidden := b, parents := b, ignoreFiles := b,
           gitIgnore := b, gitGlobal := b, gitExclude := b }

/-- The builder configuration assembled by `find_env_files_recursive`
(src/envscan.rs), applying its calls in source order:
`.hidden(true).follow_links(false).standard_filters(false).parents(false)`
then `.add_custom_ignore_filename(".eenvignore")` (the trailing
`filter_entry` predicate is constantly true). -/
def eenvWalkConfig : WalkConfig :=
  let c := defaultWalkConfig
  let c := { c with hidden := true }
  let c := { c with followLinks := false }
  let c := standardFilters false c
  let c := { c with parents := false }
  { c with customIgnoreNames := c.customIgnoreNames ++ [".eenvignore".toList] }

/-- One filesystem entry as the walk sees it: its path, whether it is a
symbolic link, whether the resolved target is a regular file, whether its
name is hidden (dot-prefixed), and whether the repository's own ignore
rules respectively the `.eenvignore` rules match it. -/
structure FsEntry where
  path : List Char
  isSymlink : Bool
  targetIsFile : Bool
  hiddenName : Bool
  matchedRepoIgnore : Bool
  matchedEenvIgnore : Bool
  deriving DecidableEq

/-- Model of `DirEntry::file_type().is_file()`: with `follow_links` off a
symlink reports the link type, never a regular file. -/
def fileTypeIsFile (cfg : WalkConfig) (e : FsEntry) : Bool :=
  if e.isSymlink then cfg.followLinks && e.targetIsFile else e.targetIsFile

/-- Whether the configured walk yields an entry: each enabled filter can
suppress it; custom ignore filenames are honoured independently of the
standard filters. -/
def entryIncluded (cfg : WalkConfig) (e : FsEntry) : Bool :=
  (!(cfg.hidden && e.hiddenName))
    && (!((cfg.gitIgnore || cfg.gitExclude || cfg.gitGlobal) && e.matchedRepoIgnore))
    && (!(!cfg.customIgnoreNames.isEmpty && e.matchedEenvIgnore))

/-- The walk over a directory tree, as the list of entries it yields. -/
def walkEntries (cfg : WalkConfig) (entries : List FsEntry) : List FsEntry :=
  entries.filter (entryIncluded cfg)

/-- Embedding of `is_env_file` (src/envscan.rs): a regular file whose base
name starts with `.env`. -/
def is_env_file (cfg : WalkConfig) (e : FsEntry) : Bool :=
  fileTypeIsFile cfg e && startsWith (fileName e.path) (".env".toList)

/-- Embedding of `find_env_files_recursive` (src/envscan.rs): walk with the
`eenvWalkConfig` filters, keep env files, take their (already canonical)
paths, sort and deduplicate. -/
def find_env_files_recursive (entries : List FsEntry) : List (List Char) :=
  dedupList (sortPaths
    (((walkEntries eenvWalkConfig entries).filter (is_env_file eenvWalkConfig)).map
      (fun e => e.path)))

/-! ## Theorems -/

/-- A concrete cipher instance satisfying the AEAD contract, used to
exercise the envelope theorems on concrete inputs: the tag is sixteen zero
bytes, checked on decryption. -/
def toyAead : AEAD where
  enc := fun _ p => p ++ List.replicate 16 0
  dec := fun _ d =>
    if d.length < 16 then none
    else if d.drop (d.length - 16) = List.replicate 16 0 then some (d.take (d.length - 16))
    else none

/-- The toy cipher satisfies the decrypt-encrypt contract. -/
theorem toyAead_roundtrip (n p : List Nat) : toyAead.dec n (toyAead.enc n p) = some p := by
  simp only [toyAead]
  have hl : (p ++ List.replicate 16 (0 : Nat)).length = p.length + 16 := by simp
  rw [hl]
  have h2 : p.length + 16 - 16 = p.length := by omega
  rw [h2, List.drop_left, List.take_left]
  simp

/-- The toy cipher appends a 16-byte tag. -/
theorem toyAead_tag_len (n p : List Nat) : (toyAead.enc n p).length = p.length + 16 := by
  show (p ++ List.replicate 16 0).length = p.length + 16
  simp

/-- C1: for every plaintext `p`, every key string `k` with nonempty trim,
and every 24-byte nonce, decrypting the envelope produced by encrypting `p`
under the key derived from `k` with the key derived from `k` yields exactly
`p` — given the decrypt-encrypt contract and 16-byte tag of the external
cipher instance that the derived key selects. -/
theorem c1_encrypt_decrypt_roundtrip
    (family : List Nat → AEAD) (H : List Char → List Nat) (k : List Char)
    (hk : ¬ trim k = [])
    (hrt : ∀ n p, (family (H k)).dec n ((family (H k)).enc n p) = some p)
    (hlen : ∀ n p, ((family (H k)).enc n p).length = p.length + 16)
    (nonce p : List Nat) (hn : nonce.length = 24) :
    ∃ aead, aead_from_key_str family H k = Except.ok aead ∧
      decrypt_file_from_enc aead (encrypt_file_to_enc aead nonce p) = Except.ok p := by
  refine ⟨family (H k), by simp [aead_from_key_str, hk], ?_⟩
  have hdata : encrypt_file_to_enc (family (H k)) nonce p
      = MAGIC ++ (nonce ++ (family (H k)).enc nonce p) := by
    simp [encrypt_file_to_enc]
  rw [decrypt_file_from_enc, hdata]
  have hML : MAGIC.length = 5 := rfl
  have hlen2 : (MAGIC ++ (nonce ++ (family (H k)).enc nonce p)).length
      = 45 + p.length := by
    simp [hn, hlen, hML]
    omega
  rw [if_neg (by rw [hlen2, hML]; omega)]
  rw [if_neg (by rw [List.take_left]; exact fun h => h rfl)]
  have hnonce : ((MAGIC ++ (nonce ++ (family (H k)).enc nonce p)).drop MAGIC.length).take 24
      = nonce := by
    rw [List.drop_left, List.take_left' hn]
  have hct : (MAGIC ++ (nonce ++ (family (H k)).enc nonce p)).drop (MAGIC.length + 24)
      = (family (H k)).enc nonce p := by
    rw [List.drop_append, List.drop_left' hn]
  rw [hnonce, hct, hrt]

/-- Arithmetic abbreviation for the envelope minimum length. -/
theorem envelope_min_len : MAGIC.length + 24 + 16 = 45 := rfl

/-- Closed instance of the C1 round-trip at a concrete key, nonce and
plaintext, with the toy cipher discharging the AEAD-contract hypotheses. -/
theorem c1_encrypt_decrypt_roundtrip_witness :
    ∃ aead, aead_from_key_str (fun _ => toyAead) (fun s => s.map Char.toNat) "k".toList
        = Except.ok aead ∧
      decrypt_file_from_enc aead
          (encrypt_file_to_enc aead (List.replicate 24 7) [1, 2, 3]) = Except.ok [1, 2, 3] :=
  c1_encrypt_decrypt_roundtrip (fun _ => toyAead) (fun s => s.map Char.toNat) "k".toList
    (by decide) (fun n p => toyAead_roundtrip n p) (fun n p => toyAead_tag_len n p)
    (List.replicate 24 7) [1, 2, 3] (by decide)

/-- C2: `decrypt_file_from_enc` fails on every input shorter than 45 bytes,
on every input whose first 5 bytes are not the magic, and on every
authentication failure of the cipher — and in each such case the
destination file keeps its prior state. -/
theorem c2_decrypt_fails_closed (aead : AEAD) (data : List Nat) (dst : Option (List Nat))
    (h : data.length < 45 ∨ ¬ data.take 5 = MAGIC ∨
         aead.dec ((data.drop 5).take 24) (data.drop 29) = none) :
    isOk (decrypt_to_dst aead data dst).1 = false ∧ (decrypt_to_dst aead data dst).2 = dst := by
  have hML : MAGIC.length = 5 := rfl
  have herr : ∃ e, decrypt_file_from_enc aead data = Except.error e := by
    rw [decrypt_file_from_enc]
    by_cases h1 : data.length < MAGIC.length + 24 + 16
    · rw [if_pos h1]; exact ⟨_, rfl⟩
    · rw [if_neg h1]
      by_cases h2 : data.take MAGIC.length = MAGIC
      · rw [if_neg (not_not_intro h2)]
        rcases h with h | h | h
        · rw [envelope_min_len] at h1
          exact absurd h h1
        · rw [hML] at h2
          exact absurd h2 h
        · rw [hML]
          have h29 : (5 : Nat) + 24 = 29 := rfl
          rw [h29, h]
          exact ⟨_, rfl⟩
      · rw [if_pos h2]; exact ⟨_, rfl⟩
  obtain ⟨e, he⟩ := herr
  rw [decrypt_to_dst, he]
  exact ⟨rfl, rfl⟩

/-- Closed instance of C2 at the empty input: the decrypt fails and the
existing destination content is untouched. -/
theorem c2_decrypt_fails_closed_witness :
    isOk (decrypt_to_dst toyAead [] (some [9])).1 = false ∧
    (decrypt_to_dst toyAead [] (some [9])).2 = some [9] :=
  c2_decrypt_fails_closed toyAead [] (some [9]) (Or.inl (by decide))

/-- Injective character-code map standing in for the blake3 hash in
concrete instances. -/
def charCodes (s : List Char) : List Nat := s.map Char.toNat

/-- Helper: the bootstrap validation loop reports false when no artifact
decrypts under the candidate key. -/
theorem validateLoop_eq_false (A : AEAD) (l : List EncItem)
    (h : ∀ it ∈ l, isOk (decrypt_file_from_enc A it.data) = false) :
    validateLoop A l = false := by
  induction l with
  | nil => rfl
  | cons it rest ih =>
    have h1 := h it (List.mem_cons_self it rest)
    have h2 : ∀ x ∈ rest, isOk (decrypt_file_from_enc A x.data) = false :=
      fun x hx => h x (List.mem_cons_of_mem it hx)
    simp only [validateLoop]
    cases hd : it.dstBefore <;> simp [h1, ih h2]

/-- C3: when the operator's candidate key decrypts none of the discovered
artifacts, or no artifacts were discovered, the bootstrap returns an error
and neither the config file nor the ignore-file is written. -/
theorem c3_bootstrap_failure_persists_nothing
    (family : List Nat → AEAD) (H : List Char → List Nat) (k : List Char)
    (encs : List EncItem)
    (h : encs = [] ∨ ∀ it ∈ encs, isOk (decrypt_file_from_enc (family (H k)) it.data) = false) :
    isOk (bootstrap_key_and_decrypt family H k encs).result = false ∧
    (bootstrap_key_and_decrypt family H k encs).configWritten = false ∧
    (bootstrap_key_and_decrypt family H k encs).gitignoreEnsured = false := by
  rw [bootstrap_key_and_decrypt, aead_from_key_str]
  by_cases hk : trim k = []
  · rw [if_pos hk]
    exact ⟨rfl, rfl, rfl⟩
  · rw [if_neg hk]
    dsimp only
    rcases h with h | h
    · rw [if_pos h]
      exact ⟨rfl, rfl, rfl⟩
    · by_cases he : encs = []
      · rw [if_pos he]
        exact ⟨rfl, rfl, rfl⟩
      · rw [if_neg he, validateLoop_eq_false (family (H k)) encs h]
        exact ⟨rfl, rfl, rfl⟩

/-- Closed instance of C3: with no artifacts discovered the bootstrap fails
and persists nothing. -/
theorem c3_bootstrap_failure_persists_nothing_witness :
    isOk (bootstrap_key_and_decrypt (fun _ => toyAead) charCodes "k".toList []).result = false ∧
    (bootstrap_key_and_decrypt (fun _ => toyAead) charCodes "k".toList []).configWritten = false ∧
    (bootstrap_key_and_decrypt (fun _ => toyAead) charCodes "k".toList []).gitignoreEnsured
      = false :=
  c3_bootstrap_failure_persists_nothing (fun _ => toyAead) charCodes "k".toList [] (Or.inl rfl)

/-- C4: in the decrypt-all workflow, every artifact whose decryption target
already exists is skipped, and the target keeps its content. -/
theorem c4_existing_target_unchanged (aead : AEAD) (items : List EncItem) (i : Nat)
    (c : List Nat) (hi : i < items.length)
    (hi2 : i < (handle_enc_workflow aead items).length)
    (h : (items.get ⟨i, hi⟩).dstBefore = some c) :
    (handle_enc_workflow aead items).get ⟨i, hi2⟩ = some c := by
  have hstep : (handle_enc_workflow aead items).get ⟨i, hi2⟩
      = handle_enc_item aead (items.get ⟨i, hi⟩) := by
    simp [handle_enc_workflow]
  rw [hstep, handle_enc_item, h]

/-- Closed instance of C4: an artifact with an existing target keeps the
target's content. -/
theorem c4_existing_target_unchanged_witness :
    (handle_enc_workflow toyAead [⟨[], some [9]⟩]).get ⟨0, by decide⟩ = some [9] :=
  c4_existing_target_unchanged toyAead [⟨[], some [9]⟩] 0 [9] (by decide) (by decide) rfl

/-- C8 counterexample: with an injective stand-in hash, the config-read
derivation and the bootstrap derivation disagree on the key string
`" k"` (accepted by both, since its trim is nonempty): the former hashes
the trimmed string, the latter the raw string. -/
theorem c8_counterexample :
    ¬ read_eenv_key_derive charCodes (" k".toList) = aead_key_bytes charCodes (" k".toList) := by
  have h1 : read_eenv_key_derive charCodes (" k".toList) = Except.ok [107] := rfl
  have h2 : aead_key_bytes charCodes (" k".toList) = Except.ok [32, 107] := rfl
  rw [h1, h2]
  intro h
  injection h with h
  exact absurd h (by decide)

/-- C8 amended: key derivation is a deterministic function of the key
string, and the two derivations agree on every key string that carries no
leading or trailing whitespace (on other strings `read_eenv_key` hashes the
trimmed form while `aead_from_key_str` hashes the raw form). -/
theorem c8_derivations_agree_on_trimmed (H : List Char → List Nat) (k : List Char)
    (hk : trim k = k) :
    read_eenv_key_derive H k = aead_key_bytes H k := by
  rw [read_eenv_key_derive, aead_key_bytes, hk]

/-- Closed instance of the amended C8 at a whitespace-free key. -/
theorem c8_derivations_agree_on_trimmed_witness :
    read_eenv_key_derive charCodes ("k".toList) = aead_key_bytes charCodes ("k".toList) :=
  c8_derivations_agree_on_trimmed charCodes ("k".toList) (by decide)

/-- Membership through the insertion step of the path sort. -/
theorem mem_insertLe (x a : List Char) (l : List (List Char)) :
    a ∈ insertLe x l ↔ a = x ∨ a ∈ l := by
  induction l with
  | nil => simp [insertLe]
  | cons y ys ih =>
    rw [insertLe]
    by_cases h : lexLe x y
    · rw [if_pos h]
      simp [List.mem_cons]
    · rw [if_neg h]
      simp [List.mem_cons, ih]
      tauto

/-- Sorting preserves membership. -/
theorem mem_sortPaths (a : List Char) (l : List (List Char)) :
    a ∈ sortPaths l ↔ a ∈ l := by
  induction l with
  | nil => simp [sortPaths]
  | cons x xs ih =>
    rw [sortPaths, mem_insertLe]
    simp [List.mem_cons, ih]

/-- Deduplication preserves membership. -/
theorem mem_dedupList (a : List Char) : ∀ l, (a ∈ dedupList l ↔ a ∈ l)
  | [] => by simp [dedupList]
  | [b] => by simp [dedupList]
  | b :: c :: rest => by
    rw [dedupList]
    by_cases h : b = c
    · rw [if_pos h, mem_dedupList a (c :: rest)]
      subst h
      simp [List.mem_cons]
    · rw [if_neg h]
      simp [List.mem_cons, mem_dedupList a (c :: rest)]

/-- The entry refuting C9: a regular file named `.env`, matched by the
repository's own ignore rules, not matched by `.eenvignore`. -/
def gitIgnoredEnvEntry : FsEntry :=
  ⟨"/r/.env".toList, false, true, true, true, false⟩

/-- C9 counterexample: the walk configuration disables the standard filters
(`standard_filters(false)`), so a file matched by the repository's own
ignore rules is still discovered — it is not absent from the result. -/
theorem c9_counterexample :
    gitIgnoredEnvEntry.matchedRepoIgnore = true ∧
    gitIgnoredEnvEntry.path ∈ find_env_files_recursive [gitIgnoredEnvEntry] :=
  ⟨rfl, by decide⟩

/-- C9 amended: the walk honours only the custom `.eenvignore` rules (the
standard filters, including the repository's own ignore rules and
hidden-file filtering, are explicitly disabled) and does not follow
symbolic links: every entry matched by `.eenvignore` is excluded, and every
discovered path comes from a non-symlink regular-file entry that
`.eenvignore` does not match and whose name starts with `.env`. -/
theorem c9_walk_honors_only_custom_ignore (entries : List FsEntry) :
    (∀ e ∈ entries, e.matchedEenvIgnore = true → ¬ e ∈ walkEntries eenvWalkConfig entries) ∧
    (∀ p ∈ find_env_files_recursive entries, ∃ e, e ∈ entries ∧ e.path = p ∧
      e.matchedEenvIgnore = false ∧ e.isSymlink = false ∧ e.targetIsFile = true ∧
      startsWith (fileName p) (".env".toList) = true) := by
  have hcfg : eenvWalkConfig
      = ⟨false, false, false, false, false, false, false, [".eenvignore".toList]⟩ := rfl
  constructor
  · intro e _ hm hmem
    rw [walkEntries, List.mem_filter] at hmem
    have h2 := hmem.2
    rw [entryIncluded, hcfg] at h2
    simp [hm] at h2
  · intro p hp
    rw [find_env_files_recursive, mem_dedupList, mem_sortPaths, List.mem_map] at hp
    obtain ⟨e, he, rfl⟩ := hp
    rw [List.mem_filter] at he
    obtain ⟨hw, henv⟩ := he
    rw [walkEntries, List.mem_filter] at hw
    obtain ⟨hmem, hinc⟩ := hw
    rw [is_env_file, Bool.and_eq_true] at henv
    obtain ⟨hft, hname⟩ := henv
    rw [fileTypeIsFile, hcfg] at hft
    have hsym : e.isSymlink = false := by
      cases hs : e.isSymlink
      · rfl
      · rw [hs] at hft
        simp at hft
    rw [hsym] at hft
    simp only [if_neg Bool.false_ne_true] at hft
    have hm : e.matchedEenvIgnore = false := by
      rw [entryIncluded, hcfg] at hinc
      cases hm2 : e.matchedEenvIgnore
      · rfl
      · rw [hm2] at hinc
        simp at hinc
    exact ⟨e, hmem, rfl, hm, hsym, hft, hname⟩

/-- The entry used in the amended-C9 instance: a regular `.env` file
matched by `.eenvignore`. -/
def eenvIgnoredEntry : FsEntry :=
  ⟨"/r/sub/.env".toList, false, true, true, false, true⟩

/-- Closed instance of the amended C9: an entry matched by `.eenvignore`
is excluded from the walk. -/
theorem c9_walk_honors_only_custom_ignore_witness :
    ¬ eenvIgnoredEntry ∈ walkEntries eenvWalkConfig [eenvIgnoredEntry] :=
  (c9_walk_honors_only_custom_ignore [eenvIgnoredEntry]).1 eenvIgnoredEntry (by decide) rfl

/-- C10: code bug — `ensure_eenv_config` splices the operator-supplied key
into the config template without JSON escaping.  After a reported
successful repair (status `RewrittenFromInvalid`) from the unparsable prior
content `{bad` with operator key `a"b`, the written config fails
`validate_eenv_config`; with an escaping-free key the same path yields a
valid config, showing the intent. -/
theorem c10_unescaped_key_breaks_validation :
    ensure_eenv_config ("G1".toList) ('a' :: '"' :: ['b']) (some ("\x7bbad".toList))
      = Except.ok ⟨ConfigStatus.RewrittenFromInvalid,
          config_template ('a' :: '"' :: ['b']), some ("\x7bbad".toList)⟩ ∧
    validate_eenv_config (some (config_template ('a' :: '"' :: ['b']))) = false ∧
    validate_eenv_config (some (config_template ("Good44Key".toList))) = true :=
  ⟨rfl, by decide, by decide⟩

/-- `trimRight` yields a prefix of its argument. -/
theorem trimRight_prefix_self (s : List Char) : trimRight s <+: s := by
  rw [trimRight]
  have h : s.reverse.dropWhile isWs <:+ s.reverse := List.dropWhile_suffix isWs
  have h2 := List.reverse_prefix.mpr h
  rwa [List.reverse_reverse] at h2

/-- A nonempty prefix shares its first element with the larger list. -/
theorem head?_of_prefix {l₁ l₂ : List Char} (h : l₁ <+: l₂) (hne : ¬ l₁ = []) :
    l₁.head? = l₂.head? := by
  obtain ⟨t, rfl⟩ := h
  cases l₁ with
  | nil => exact absurd rfl hne
  | cons a l => rfl

/-- When `trim` of a line is nonempty, its head is the line's first
non-whitespace character. -/
theorem trim_head? (s : List Char) (h : ¬ trim s = []) :
    (trim s).head? = (trimLeft s).head? :=
  head?_of_prefix (trimRight_prefix_self (trimLeft s)) h

/-- `trimRight` keeps a leading non-whitespace character. -/
theorem trimRight_cons (c : Char) (t : List Char) (hc : isWs c = false) :
    trimRight (c :: t) = c :: trimRight t := by
  rw [trimRight, trimRight, List.reverse_cons, List.dropWhile_append]
  by_cases h : (t.reverse.dropWhile isWs).isEmpty
  · rw [if_pos h]
    have h0 : t.reverse.dropWhile isWs = [] := by simpa [List.isEmpty_iff] using h
    simp [List.dropWhile, hc, h0]
  · rw [if_neg h]
    simp

/-- A line whose first non-whitespace character is `#` has a nonempty trim
that starts with `#`. -/
theorem trim_of_comment (line : List Char) (h : (trimLeft line).head? = some '#') :
    ¬ trim line = [] ∧ (trim line).head? = some '#' := by
  obtain ⟨t, ht⟩ : ∃ t, trimLeft line = '#' :: t := by
    cases hl : trimLeft line with
    | nil => rw [hl] at h; exact absurd h (by simp)
    | cons a l =>
      rw [hl] at h
      simp only [List.head?_cons, Option.some.injEq] at h
      exact ⟨l, by rw [h]⟩
  rw [trim, ht, trimRight_cons _ _ (by decide)]
  exact ⟨by simp, rfl⟩

/-- C5: the skeleton transform processes a file line by line in order (it
is the map of the per-line transform, so line count and order are
preserved); each blank line maps to the empty line, each comment line
(first non-whitespace character `#`) is kept verbatim, each remaining line
containing `=` is rewritten to the trimmed part before the first `=`
followed by `=` with the value discarded, and every other non-empty
non-comment line is kept verbatim. -/
theorem c5_skeleton_content_law (lines : List (List Char)) (line : List Char) :
    extract_env_skeletons lines = lines.map skeleton_line ∧
    (extract_env_skeletons lines).length = lines.length ∧
    (trim line = [] → skeleton_line line = []) ∧
    ((trimLeft line).head? = some '#' → skeleton_line line = line) ∧
    (¬ trim line = [] → ¬ (trimLeft line).head? = some '#' → '=' ∈ line →
      skeleton_line line
        = trim (line.takeWhile (fun c => decide (¬ c = '='))) ++ ['=']) ∧
    (¬ trim line = [] → ¬ (trimLeft line).head? = some '#' → ¬ '=' ∈ line →
      skeleton_line line = line) := by
  have hmap : ∀ ls : List (List Char), extract_env_skeletons ls = ls.map skeleton_line := by
    intro ls
    induction ls with
    | nil => rfl
    | cons l rest ih => rw [extract_env_skeletons, ih, List.map_cons]
  refine ⟨hmap lines, by rw [hmap lines]; simp, ?_, ?_, ?_, ?_⟩
  · intro h
    simp only [skeleton_line]
    rw [if_pos h]
  · intro h
    obtain ⟨hne, hh⟩ := trim_of_comment line h
    simp only [skeleton_line]
    rw [if_neg hne, if_pos hh]
  · intro hne hnc hmem
    have hc : ¬ (trim line).head? = some '#' := by
      rw [trim_head? line hne]
      exact hnc
    have hso : splitOnce line '='
        = some (line.takeWhile (fun a => decide (¬ a = '=')),
                (line.dropWhile (fun a => decide (¬ a = '='))).drop 1) := by
      rw [splitOnce, if_pos hmem]
    simp only [skeleton_line]
    rw [if_neg hne, if_neg hc, hso]
  · intro hne hnc hmem
    have hc : ¬ (trim line).head? = some '#' := by
      rw [trim_head? line hne]
      exact hnc
    have hso : splitOnce line '=' = none := by
      rw [splitOnce, if_neg hmem]
    simp only [skeleton_line]
    rw [if_neg hne, if_neg hc, hso]

/-- Closed instance of C5 on the spec's scenario lines: `A=1` becomes `A=`,
the comment and blank lines are preserved, and `B = 2` becomes `B=`. -/
theorem c5_skeleton_content_law_witness :
    extract_env_skeletons ["A=1".toList, "#c".toList, "".toList, "B = 2".toList]
      = ["A=".toList, "#c".toList, "".toList, "B=".toList] ∧
    skeleton_line ("A=1".toList)
      = trim (("A=1".toList).takeWhile (fun c => decide (¬ c = '='))) ++ ['='] := by
  constructor
  · rw [(c5_skeleton_content_law ["A=1".toList, "#c".toList, "".toList, "B = 2".toList]
      ("A=1".toList)).1]
    decide
  · exact (c5_skeleton_content_law [] ("A=1".toList)).2.2.2.2.1 (by decide) (by decide)
      (by decide)

/-- Membership in the real-file output of the classification loop. -/
theorem mem_splitLoop_real (p : List Char) : ∀ l : List (List Char),
    (p ∈ (splitLoop l).1 ↔ p ∈ l ∧ endsWith (fileName p) (".example".toList) = false
      ∧ endsWith (fileName p) (".enc".toList) = false)
  | [] => by simp [splitLoop]
  | q :: rest => by
    have ih := mem_splitLoop_real p rest
    rcases hsl : splitLoop rest with ⟨r, ex, en⟩
    rw [hsl] at ih
    simp only [splitLoop, hsl]
    by_cases h1 : endsWith (fileName q) (".example".toList) = true
    · rw [if_pos h1]
      dsimp only
      rw [ih, List.mem_cons]
      constructor
      · rintro ⟨hp, hex, henc⟩
        exact ⟨Or.inr hp, hex, henc⟩
      · rintro ⟨hq | hp, hex, henc⟩
        · subst hq
          rw [h1] at hex
          cases hex
        · exact ⟨hp, hex, henc⟩
    · rw [if_neg h1]
      by_cases h2 : endsWith (fileName q) (".enc".toList) = true
      · rw [if_pos h2]
        dsimp only
        rw [ih, List.mem_cons]
        constructor
        · rintro ⟨hp, hex, henc⟩
          exact ⟨Or.inr hp, hex, henc⟩
        · rintro ⟨hq | hp, hex, henc⟩
          · subst hq
            rw [h2] at henc
            cases henc
          · exact ⟨hp, hex, henc⟩
      · rw [if_neg h2]
        dsimp only
        rw [List.mem_cons, List.mem_cons, ih]
        constructor
        · rintro (hq | ⟨hp, hex, henc⟩)
          · subst hq
            exact ⟨Or.inl rfl, Bool.eq_false_iff.mpr h1, Bool.eq_false_iff.mpr h2⟩
          · exact ⟨Or.inr hp, hex, henc⟩
        · rintro ⟨hq | hp, hex, henc⟩
          · exact Or.inl hq
          · exact Or.inr ⟨hp, hex, henc⟩

/-- Membership in the example-file output of the classification loop. -/
theorem mem_splitLoop_example (p : List Char) : ∀ l : List (List Char),
    (p ∈ (splitLoop l).2.1 ↔ p ∈ l ∧ endsWith (fileName p) (".example".toList) = true)
  | [] => by simp [splitLoop]
  | q :: rest => by
    have ih := mem_splitLoop_example p rest
    rcases hsl : splitLoop rest with ⟨r, ex, en⟩
    rw [hsl] at ih
    simp only [splitLoop, hsl]
    by_cases h1 : endsWith (fileName q) (".example".toList) = true
    · rw [if_pos h1]
      dsimp only
      rw [List.mem_cons, List.mem_cons, ih]
      constructor
      · rintro (hq | ⟨hp, hex⟩)
        · subst hq
          exact ⟨Or.inl rfl, h1⟩
        · exact ⟨Or.inr hp, hex⟩
      · rintro ⟨hq | hp, hex⟩
        · exact Or.inl hq
        · exact Or.inr ⟨hp, hex⟩
    · rw [if_neg h1]
      by_cases h2 : endsWith (fileName q) (".enc".toList) = true
      · rw [if_pos h2]
        dsimp only
        rw [ih, List.mem_cons]
        constructor
        · rintro ⟨hp, hex⟩
          exact ⟨Or.inr hp, hex⟩
        · rintro ⟨hq | hp, hex⟩
          · subst hq
            exact absurd hex h1
          · exact ⟨hp, hex⟩
      · rw [if_neg h2]
        dsimp only
        rw [ih, List.mem_cons]
        constructor
        · rintro ⟨hp, hex⟩
          exact ⟨Or.inr hp, hex⟩
        · rintro ⟨hq | hp, hex⟩
          · subst hq
            exact absurd hex h1
          · exact ⟨hp, hex⟩

/-- Membership in the encrypted-file output of the classification loop. -/
theorem mem_splitLoop_enc (p : List Char) : ∀ l : List (List Char),
    (p ∈ (splitLoop l).2.2 ↔ p ∈ l ∧ endsWith (fileName p) (".example".toList) = false
      ∧ endsWith (fileName p) (".enc".toList) = true)
  | [] => by simp [splitLoop]
  | q :: rest => by
    have ih := mem_splitLoop_enc p rest
    rcases hsl : splitLoop rest with ⟨r, ex, en⟩
    rw [hsl] at ih
    simp only [splitLoop, hsl]
    by_cases h1 : endsWith (fileName q) (".example".toList) = true
    · rw [if_pos h1]
      dsimp only
      rw [ih, List.mem_cons]
      constructor
      · rintro ⟨hp, hex, henc⟩
        exact ⟨Or.inr hp, hex, henc⟩
      · rintro ⟨hq | hp, hex, henc⟩
        · subst hq
          rw [h1] at hex
          cases hex
        · exact ⟨hp, hex, henc⟩
    · rw [if_neg h1]
      by_cases h2 : endsWith (fileName q) (".enc".toList) = true
      · rw [if_pos h2]
        dsimp only
        rw [List.mem_cons, List.mem_cons, ih]
        constructor
        · rintro (hq | ⟨hp, hex, henc⟩)
          · subst hq
            exact ⟨Or.inl rfl, Bool.eq_false_iff.mpr h1, h2⟩
          · exact ⟨Or.inr hp, hex, henc⟩
        · rintro ⟨hq | hp, hex, henc⟩
          · exact Or.inl hq
          · exact Or.inr ⟨hp, hex, henc⟩
      · rw [if_neg h2]
        dsimp only
        rw [ih, List.mem_cons]
        constructor
        · rintro ⟨hp, hex, henc⟩
          exact ⟨Or.inr hp, hex, henc⟩
        · rintro ⟨hq | hp, hex, henc⟩
          · subst hq
            exact absurd henc h2
          · exact ⟨hp, hex, henc⟩

/-- C6: `split_env_files` partitions its input: the three outputs are
pairwise disjoint, their union is exactly the (deduplicated) input set,
every path lands in the class its filename suffix selects, and a name
carrying both suffixes is classified as a skeleton. -/
theorem c6_partition (files : List (List Char)) (p : List Char) :
    ((p ∈ (split_env_files files).1 ∨ p ∈ (split_env_files files).2.1
        ∨ p ∈ (split_env_files files).2.2) ↔ p ∈ files) ∧
    (p ∈ (split_env_files files).2.1 → ¬ p ∈ (split_env_files files).1
        ∧ ¬ p ∈ (split_env_files files).2.2) ∧
    (p ∈ (split_env_files files).2.2 → ¬ p ∈ (split_env_files files).1) ∧
    (p ∈ files → endsWith (fileName p) (".example".toList) = true
        → p ∈ (split_env_files files).2.1) := by
  have hD : p ∈ dedupList (sortPaths files) ↔ p ∈ files := by
    rw [mem_dedupList, mem_sortPaths]
  rw [split_env_files, mem_splitLoop_real, mem_splitLoop_example, mem_splitLoop_enc, hD]
  by_cases hex : endsWith (fileName p) (".example".toList) = true
    <;> by_cases henc : endsWith (fileName p) (".enc".toList) = true
    <;> simp_all

/-- Closed instance of C6 on a concrete discovered set containing all three
classes and a double-suffix name. -/
theorem c6_partition_witness :
    ((".a/.env".toList ∈ (split_env_files
        [".a/.env".toList, ".a/.env.enc".toList, ".a/.env.enc.example".toList]).1)
      ↔ ".a/.env".toList
          ∈ [".a/.env".toList, ".a/.env.enc".toList, ".a/.env.enc.example".toList]) ∧
    (".a/.env.enc.example".toList ∈ (split_env_files
        [".a/.env".toList, ".a/.env.enc".toList, ".a/.env.enc.example".toList]).2.1) := by
  constructor
  · constructor
    · intro _
      decide
    · intro h
      exact ((c6_partition
        [".a/.env".toList, ".a/.env.enc".toList, ".a/.env.enc.example".toList]
        (".a/.env".toList)).1.mpr h).elim id (by decide)
  · exact (c6_partition
      [".a/.env".toList, ".a/.env.enc".toList, ".a/.env.enc.example".toList]
      (".a/.env.enc.example".toList)).2.2.2 (by decide) (by decide)

/-! ### Lemmas for C7: lines and joins -/

/-- Pieces produced by the newline split contain no newline. -/
theorem not_nl_mem_splitNl : ∀ (s : List Char), ∀ l ∈ splitNl s, ¬ '\n' ∈ l
  | [], l, hl => by
    rw [show splitNl [] = [[]] from rfl] at hl
    rcases List.mem_cons.mp hl with h | h
    · subst h
      simp
    · cases h
  | c :: rest, l, hl => by
    rw [splitNl] at hl
    by_cases hc : c = '\n'
    · rw [if_pos hc] at hl
      rcases List.mem_cons.mp hl with h | h
      · subst h
        simp
      · exact not_nl_mem_splitNl rest l h
    · rw [if_neg hc] at hl
      rcases hps : splitNl rest with _ | ⟨p, ps⟩
      · rw [hps] at hl
        rcases List.mem_cons.mp hl with h | h
        · subst h
          intro hmem
          rcases List.mem_cons.mp hmem with h2 | h2
          · exact hc h2.symm
          · cases h2
        · cases h
      · rw [hps] at hl
        rcases List.mem_cons.mp hl with h | h
        · subst h
          intro hmem
          rcases List.mem_cons.mp hmem with h2 | h2
          · exact hc h2.symm
          · exact not_nl_mem_splitNl rest p (by rw [hps]; exact List.mem_cons_self p ps) h2
        · exact not_nl_mem_splitNl rest l (by rw [hps]; exact List.mem_cons_of_mem p h)

/-- Splitting a newline-free text yields a single piece. -/
theorem splitNl_no_nl : ∀ (l : List Char), ¬ '\n' ∈ l → splitNl l = [l]
  | [], _ => rfl
  | c :: rest, h => by
    rw [splitNl]
    have hc : ¬ c = '\n' := fun hx => h (List.mem_cons.mpr (Or.inl hx.symm))
    rw [if_neg hc, splitNl_no_nl rest (fun hx => h (List.mem_cons.mpr (Or.inr hx)))]

/-- Splitting around an explicit newline separator. -/
theorem splitNl_append : ∀ (l s : List Char), ¬ '\n' ∈ l →
    splitNl (l ++ '\n' :: s) = l :: splitNl s
  | [], s, _ => by
    rw [List.nil_append, splitNl, if_pos rfl]
  | c :: rest, s, h => by
    rw [List.cons_append, splitNl]
    have hc : ¬ c = '\n' := fun hx => h (List.mem_cons.mpr (Or.inl hx.symm))
    rw [if_neg hc, splitNl_append rest s (fun hx => h (List.mem_cons.mpr (Or.inr hx)))]

/-- `join` of a two-or-more-element list. -/
theorem joinLines_cons (l : List Char) (ls : List (List Char)) (h : ¬ ls = []) :
    joinLines (l :: ls) = l ++ '\n' :: joinLines ls := by
  cases ls with
  | nil => exact absurd rfl h
  | cons a as => rfl

/-- Newline-free lines are recovered by splitting their join. -/
theorem splitNl_joinLines : ∀ (ls : List (List Char)), ¬ ls = [] →
    (∀ l ∈ ls, ¬ '\n' ∈ l) → splitNl (joinLines ls) = ls
  | [], h, _ => absurd rfl h
  | [l], _, h => by
    rw [show joinLines [l] = l from rfl, splitNl_no_nl l (h l (List.mem_cons_self l []))]
  | l :: a :: as, _, h => by
    rw [joinLines_cons l (a :: as) (by simp),
      splitNl_append _ _ (h l (List.mem_cons_self l (a :: as))),
      splitNl_joinLines (a :: as) (by simp) (fun x hx => h x (List.mem_cons_of_mem l hx))]

/-- Splitting the join with one more trailing newline appends one empty
piece. -/
theorem splitNl_joinLines_concat : ∀ (ls : List (List Char)), ¬ ls = [] →
    (∀ l ∈ ls, ¬ '\n' ∈ l) → splitNl (joinLines ls ++ ['\n']) = ls ++ [[]]
  | [], h, _ => absurd rfl h
  | [l], _, h => by
    rw [show joinLines [l] = l from rfl,
      show l ++ ['\n'] = l ++ '\n' :: [] from rfl,
      splitNl_append l [] (h l (List.mem_cons_self l []))]
    rfl
  | l :: a :: as, _, h => by
    rw [joinLines_cons l (a :: as) (by simp), List.append_assoc,
      show ('\n' :: joinLines (a :: as)) ++ ['\n']
        = '\n' :: (joinLines (a :: as) ++ ['\n']) from rfl,
      splitNl_append _ _ (h l (List.mem_cons_self l (a :: as))),
      splitNl_joinLines_concat (a :: as) (by simp)
        (fun x hx => h x (List.mem_cons_of_mem l hx))]
    rfl

/-- Appending one blank line appends one newline to the join. -/
theorem joinLines_concat_blank : ∀ (ls : List (List Char)), ¬ ls = [] →
    joinLines (ls ++ [[]]) = joinLines ls ++ ['\n']
  | [], h => absurd rfl h
  | [a], _ => rfl
  | a :: b :: bs, _ => by
    rw [show (a :: b :: bs) ++ [[]] = a :: ((b :: bs) ++ [[]]) from rfl,
      joinLines_cons a ((b :: bs) ++ [[]]) (by simp),
      joinLines_concat_blank (b :: bs) (by simp),
      joinLines_cons a (b :: bs) (by simp)]
    simp

/-- The join of newline-free lines ends exactly as its nonempty last line
ends. -/
theorem joinLines_getLast? : ∀ (ls : List (List Char)) (lk : List Char),
    ls.getLast? = some lk → ¬ lk = [] → (joinLines ls).getLast? = lk.getLast?
  | [], lk, h, _ => by cases h
  | [a], lk, h, _ => by
    have ha : a = lk := by
      simpa using h
    subst ha
    rfl
  | a :: b :: bs, lk, h, hk => by
    have h2 : (b :: bs).getLast? = some lk := by
      rwa [List.getLast?_cons_cons] at h
    have ih := joinLines_getLast? (b :: bs) lk h2 hk
    obtain ⟨c, hc⟩ : ∃ c, lk.getLast? = some c := by
      cases lk with
      | nil => exact absurd rfl hk
      | cons x xs => exact ⟨(x :: xs).getLast (by simp), List.getLast?_eq_getLast _ _⟩
    obtain ⟨t, ht⟩ := List.getLast?_eq_some_iff.mp (by rw [ih]; exact hc)
    rw [joinLines_cons a (b :: bs) (by simp), ht,
      show a ++ '\n' :: (t ++ [c]) = (a ++ '\n' :: t) ++ [c] by simp,
      List.getLast?_concat, hc]

/-- When the last line is nonempty, the fixup appends a newline to the
join. -/
theorem joinNl_eq_concat (ls : List (List Char)) (lk : List Char)
    (hlast : ls.getLast? = some lk) (hk : ¬ lk = []) (hnl : ∀ l ∈ ls, ¬ '\n' ∈ l) :
    joinNl ls = joinLines ls ++ ['\n'] := by
  rw [joinNl, ensureNl, joinLines_getLast? ls lk hlast hk, if_neg ?hcond]
  case hcond =>
    intro hx
    exact hnl lk (List.mem_of_mem_getLast? hlast) (List.mem_of_mem_getLast? hx)

/-- `stripCr` on a line with no trailing carriage return. -/
theorem stripCr_eq_self (l : List Char) (h : ¬ l.getLast? = some '\x0d') : stripCr l = l := by
  rw [stripCr, if_neg h]

/-- `stripCr` over lines with no trailing carriage return. -/
theorem map_stripCr_eq_self (ls : List (List Char))
    (h : ∀ l ∈ ls, ¬ l.getLast? = some '\x0d') : ls.map stripCr = ls := by
  rw [show ls.map stripCr = ls.map id from
      List.map_eq_map_iff.mpr (fun a ha => stripCr_eq_self a (h a ha)),
    List.map_id]

/-- Splitting the fixed-up join recovers the lines, when the last line is
nonempty. -/
theorem linesOf_joinNl_of_last_ne_nil (ls : List (List Char)) (lk : List Char)
    (hne : ¬ ls = []) (hlast : ls.getLast? = some lk) (hk : ¬ lk = [])
    (hnl : ∀ l ∈ ls, ¬ '\n' ∈ l) (hcr : ∀ l ∈ ls, ¬ l.getLast? = some '\x0d') :
    linesOf (joinNl ls) = ls := by
  rw [joinNl_eq_concat ls lk hlast hk hnl, linesOf,
    splitNl_joinLines_concat ls hne hnl, List.getLast?_concat]
  dsimp only
  rw [List.dropLast_concat, map_stripCr_eq_self ls hcr]

/-- Splitting the fixed-up join of lines ending in exactly one blank line
drops that blank line but reproduces the same text on re-join. -/
theorem linesOf_joinNl_drop_blank (ls : List (List Char)) (lk : List Char)
    (hne : ¬ ls = []) (hlast : ls.getLast? = some lk) (hk : ¬ lk = [])
    (hnl : ∀ l ∈ ls, ¬ '\n' ∈ l) (hcr : ∀ l ∈ ls, ¬ l.getLast? = some '\x0d') :
    joinNl (ls ++ [[]]) = joinLines ls ++ ['\n'] ∧
    linesOf (joinNl (ls ++ [[]])) = ls ∧
    joinNl ls = joinNl (ls ++ [[]]) := by
  have h1 : joinLines (ls ++ [[]]) = joinLines ls ++ ['\n'] := joinLines_concat_blank ls hne
  have h2 : joinNl (ls ++ [[]]) = joinLines ls ++ ['\n'] := by
    rw [joinNl, h1, ensureNl, if_pos (List.getLast?_concat _)]
  refine ⟨h2, ?_, ?_⟩
  · rw [h2, linesOf, splitNl_joinLines_concat ls hne hnl, List.getLast?_concat]
    dsimp only
    rw [List.dropLast_concat, map_stripCr_eq_self ls hcr]
  · rw [h2, joinNl_eq_concat ls lk hlast hk hnl]

/-- `stripCr` never introduces a newline. -/
theorem not_nl_stripCr (l : List Char) (h : ¬ '\n' ∈ l) : ¬ '\n' ∈ stripCr l := by
  rw [stripCr]
  by_cases hc : l.getLast? = some '\x0d'
  · rw [if_pos hc]
    intro hx
    exact h ((List.dropLast_sublist l).subset hx)
  · rw [if_neg hc]
    exact h

/-- Every line produced by `linesOf` is newline-free. -/
theorem not_nl_mem_linesOf (s : List Char) : ∀ l ∈ linesOf s, ¬ '\n' ∈ l := by
  intro l hl
  rw [linesOf] at hl
  rcases hx : (splitNl s).getLast? with _ | lx
  · rw [hx] at hl
    cases hl
  · rw [hx] at hl
    have hmap : ∀ m ∈ (splitNl s).dropLast.map stripCr, ¬ '\n' ∈ m := by
      intro m hm
      obtain ⟨m', hm', rfl⟩ := List.mem_map.mp hm
      exact not_nl_stripCr m'
        (not_nl_mem_splitNl s m' ((List.dropLast_sublist _).subset hm'))
    cases lx with
    | nil =>
      exact hmap l hl
    | cons a as =>
      rcases List.mem_append.mp hl with h | h
      · exact hmap l h
      · rcases List.mem_cons.mp h with h2 | h2
        · subst h2
          exact not_nl_mem_splitNl s _ (List.mem_of_mem_getLast? hx)
        · cases h2

/-- The head of a `dropWhile` result fails the predicate. -/
theorem head?_dropWhile (p : Char → Bool) : ∀ (y : List Char) (c : Char),
    (y.dropWhile p).head? = some c → p c = false
  | [], c, h => by cases h
  | a :: y, c, h => by
    rw [List.dropWhile_cons] at h
    by_cases hp : p a
    · rw [if_pos hp] at h
      exact head?_dropWhile p y c h
    · rw [if_neg hp] at h
      simp only [List.head?_cons, Option.some.injEq] at h
      subst h
      exact Bool.eq_false_iff.mpr hp

/-- A trimmed string never ends in whitespace. -/
theorem trim_getLast_not_ws (s : List Char) (c : Char) (h : (trim s).getLast? = some c) :
    isWs c = false := by
  rw [trim, trimRight, List.getLast?_reverse] at h
  exact head?_dropWhile isWs _ c h

/-- A line equal to its own pattern core has no trailing carriage return. -/
theorem core_getLast_not_cr (r : List Char) (h : pattern_core r = r) :
    ¬ r.getLast? = some '\x0d' := by
  intro hx
  rw [← h, pattern_core] at hx
  have h2 := trim_getLast_not_ws _ _ hx
  exact absurd h2 (by decide)

/-- The appended header survives the banned-pattern filter. -/
theorem header_keep : keepLine ("# added by eenv".toList) = true := by decide

/-- The appended header is newline-free. -/
theorem header_no_nl : ¬ '\n' ∈ "# added by eenv".toList := by decide

/-- The appended header has no trailing carriage return. -/
theorem header_no_cr : ¬ ("# added by eenv".toList).getLast? = some '\x0d' := by decide

/-- Blank lines survive the banned-pattern filter. -/
theorem blank_keep : keepLine [] = true := by decide

/-- A required pattern equal to its core and not banned survives the
filter. -/
theorem keepLine_of_core (r : List Char) (hcore : pattern_core r = r)
    (hnb : ¬ r ∈ bannedList) : keepLine r = true := by
  rw [keepLine, if_neg ?hcond]
  case hcond =>
    rintro ⟨_, h2⟩
    rw [hcore] at h2
    exact hnb h2

/-- A reconciliation run on a text whose lines are all kept, whose
required patterns are all present, and whose re-join reproduces the text,
reports no change, no additions and no removals. -/
theorem fix_core_fixpoint (required : List (List Char)) (T : List Char)
    (X : List (List Char)) (hlines : linesOf T = X)
    (hkeepX : ∀ l ∈ X, keepLine l = true)
    (hM2 : missingPats required T = [])
    (hjoin : joinNl X = T) :
    (fix_gitignore_core required T).changed = false ∧
    (fix_gitignore_core required T).added = [] ∧
    (fix_gitignore_core required T).removed = [] := by
  have hkept : keptLines T = X := by
    rw [keptLines, hlines, List.filter_eq_self.mpr hkeepX]
  have hasm : assembledLines required T = X := by
    rw [assembledLines, if_pos hM2, hkept]
  refine ⟨?_, hM2, ?_⟩
  · show decide (¬ joinNl (assembledLines required T) = T) = false
    rw [hasm, hjoin]
    simp
  · show removedLines T = []
    rw [removedLines, hlines]
    refine List.filter_eq_nil_iff.mpr (fun l hl => ?_)
    rw [hkeepX l hl]
    simp

/-- Core of the amended C7: a second reconciliation run on the text the
first run produced reports `changed = false` with nothing added and
nothing removed, provided every required pattern is kept by the filter,
equals its own core, contains no newline and is nonempty, no line of the
initial content ends in a bare carriage return, and the kept lines of the
initial content do not end in two consecutive blank lines. -/
theorem fix_gitignore_core_idempotent (required : List (List Char)) (original : List Char)
    (hreqK : ∀ r ∈ required, keepLine r = true)
    (hreqC : ∀ r ∈ required, pattern_core r = r)
    (hreqN : ∀ r ∈ required, ¬ '\n' ∈ r)
    (hreqE : ∀ r ∈ required, ¬ r = [])
    (horig : ∀ l ∈ linesOf original, ¬ l.getLast? = some '\x0d')
    (htail : ¬ ((keptLines original).getLast? = some [] ∧
                ((keptLines original).dropLast).getLast? = some [])) :
    (fix_gitignore_core required ((fix_gitignore_core required original).newText)).changed
        = false ∧
    (fix_gitignore_core required ((fix_gitignore_core required original).newText)).added
        = [] ∧
    (fix_gitignore_core required ((fix_gitignore_core required original).newText)).removed
        = [] := by
  have hT : (fix_gitignore_core required original).newText
      = joinNl (assembledLines required original) := rfl
  have hL1keep : ∀ l ∈ keptLines original, keepLine l = true :=
    fun l hl => (List.mem_filter.mp hl).2
  have hL1nl : ∀ l ∈ keptLines original, ¬ '\n' ∈ l :=
    fun l hl => not_nl_mem_linesOf original l (List.mem_filter.mp hl).1
  have hL1cr : ∀ l ∈ keptLines original, ¬ l.getLast? = some '\x0d' :=
    fun l hl => horig l (List.mem_filter.mp hl).1
  rw [hT]
  by_cases hM0 : missingPats required original = []
  · have hA : assembledLines required original = keptLines original := by
      rw [assembledLines, if_pos hM0]
    have hpresent : ∀ r ∈ required, r ∈ (keptLines original).map pattern_core := by
      intro r hr
      have := List.filter_eq_nil_iff.mp hM0 r hr
      simpa using this
    rcases hL1last : (keptLines original).getLast? with _ | lk
    · have hnil : keptLines original = [] := by
        cases hx : keptLines original with
        | nil => rfl
        | cons a as =>
          rw [hx] at hL1last
          rcases List.getLast?_eq_some_iff.mp (List.getLast?_eq_getLast (a :: as) (by simp))
            with ⟨t, ht⟩
          rw [List.getLast?_eq_getLast (a :: as) (by simp)] at hL1last
          cases hL1last
      have hreq_nil : required = [] := by
        refine List.eq_nil_iff_forall_not_mem.mpr (fun r hr => ?_)
        have h2 := hpresent r hr
        rw [hnil] at h2
        cases h2
      rw [hA, hnil]
      refine fix_core_fixpoint required (joinNl []) [[]] rfl
        (fun l hl => ?_) ?_ rfl
      · rcases List.mem_cons.mp hl with h | h
        · subst h
          exact blank_keep
        · cases h
      · rw [missingPats, hreq_nil, List.filter_nil]
    · by_cases hk : lk = []
      · subst hk
        obtain ⟨t, ht⟩ := List.getLast?_eq_some_iff.mp hL1last
        rcases ht2 : t with _ | ⟨t0, trest⟩
        · rw [ht2] at ht
          have hkept1 : keptLines original = [[]] := by
            rw [ht]
            rfl
          have hreq_nil : required = [] := by
            refine List.eq_nil_iff_forall_not_mem.mpr (fun r hr => ?_)
            have h2 := hpresent r hr
            rw [hkept1] at h2
            rcases List.mem_cons.mp h2 with h3 | h3
            · exact hreqE r hr (h3.trans rfl)
            · cases h3
          rw [hA, hkept1]
          refine fix_core_fixpoint required (joinNl [[]]) [[]] rfl
            (fun l hl => ?_) ?_ rfl
          · rcases List.mem_cons.mp hl with h | h
            · subst h
              exact blank_keep
            · cases h
          · rw [missingPats, hreq_nil, List.filter_nil]
        · have htne : ¬ t = [] := by
            rw [ht2]
            simp
          obtain ⟨lk', hlk'⟩ : ∃ lk', t.getLast? = some lk' := by
            exact ⟨t.getLast htne, List.getLast?_eq_getLast _ _⟩
          have hk' : ¬ lk' = [] := by
            intro hx
            subst hx
            refine htail ⟨hL1last, ?_⟩
            rw [ht, List.dropLast_concat]
            exact hlk'
          have htsub : ∀ l ∈ t, l ∈ keptLines original := by
            intro l hl
            rw [ht]
            exact List.mem_append_left _ hl
          have htnl : ∀ l ∈ t, ¬ '\n' ∈ l := fun l hl => hL1nl l (htsub l hl)
          have htcr : ∀ l ∈ t, ¬ l.getLast? = some '\x0d' := fun l hl => hL1cr l (htsub l hl)
          obtain ⟨hjoin1, hlines1, hjoin2⟩ :=
            linesOf_joinNl_drop_blank t lk' htne hlk' hk' htnl htcr
          rw [hA, ht]
          refine fix_core_fixpoint required (joinNl (t ++ [[]])) t hlines1
            (fun l hl => hL1keep l (htsub l hl)) ?_ hjoin2
          · have hkeptT : keptLines (joinNl (t ++ [[]])) = t := by
              rw [keptLines, hlines1, List.filter_eq_self.mpr
                (fun l hl => hL1keep l (htsub l hl))]
            rw [missingPats, hkeptT]
            refine List.filter_eq_nil_iff.mpr (fun r hr => ?_)
            have h2 := hpresent r hr
            rw [ht, List.map_append] at h2
            rcases List.mem_append.mp h2 with h3 | h3
            · simp [h3]
            · rcases List.mem_cons.mp h3 with h4 | h4
              · exact absurd (h4.trans rfl) (hreqE r hr)
              · cases h4
      · have hlines1 : linesOf (joinNl (keptLines original)) = keptLines original := by
          refine linesOf_joinNl_of_last_ne_nil (keptLines original) lk ?_ hL1last hk hL1nl hL1cr
          intro hx
          rw [hx] at hL1last
          cases hL1last
        rw [hA]
        refine fix_core_fixpoint required (joinNl (keptLines original)) (keptLines original)
          hlines1 hL1keep ?_ rfl
        have hkeptT : keptLines (joinNl (keptLines original)) = keptLines original := by
          rw [keptLines, hlines1, List.filter_eq_self.mpr hL1keep]
        rw [missingPats, hkeptT]
        refine List.filter_eq_nil_iff.mpr (fun r hr => ?_)
        simp [hpresent r hr]
  · -- some patterns were appended: the assembled lines are reproduced
    -- verbatim by the second run
    obtain ⟨m, hmlast⟩ : ∃ m, (missingPats required original).getLast? = some m := by
      cases hx : missingPats required original with
      | nil => exact absurd hx hM0
      | cons a as => exact ⟨(a :: as).getLast (by simp), List.getLast?_eq_getLast _ _⟩
    have hmmem : m ∈ missingPats required original := List.mem_of_mem_getLast? hmlast
    have hmreq : m ∈ required := (List.mem_filter.mp hmmem).1
    have hMsub : ∀ r ∈ missingPats required original, r ∈ required :=
      fun r hr => (List.mem_filter.mp hr).1
    have hpre : ∀ l ∈ (match (keptLines original).getLast? with
        | some lastLine =>
          if trim lastLine ≠ [] then keptLines original ++ [[]] else keptLines original
        | none => keptLines original), l ∈ keptLines original ∨ l = [] := by
      intro l hl
      rcases hx : (keptLines original).getLast? with _ | lastLine
      · rw [hx] at hl
        exact Or.inl hl
      · rw [hx] at hl
        dsimp only at hl
        by_cases ht : trim lastLine ≠ []
        · rw [if_pos ht] at hl
          rcases List.mem_append.mp hl with h | h
          · exact Or.inl h
          · rcases List.mem_cons.mp h with h2 | h2
            · exact Or.inr h2
            · cases h2
        · rw [if_neg ht] at hl
          exact Or.inl hl
    have hpre_sub : ∀ l ∈ keptLines original, l ∈ (match (keptLines original).getLast? with
        | some lastLine =>
          if trim lastLine ≠ [] then keptLines original ++ [[]] else keptLines original
        | none => keptLines original) := by
      intro l hl
      rcases hx : (keptLines original).getLast? with _ | lastLine
      · exact hl
      · dsimp only
        by_cases ht : trim lastLine ≠ []
        · rw [if_pos ht]
          exact List.mem_append_left _ hl
        · rw [if_neg ht]
          exact hl
    have hAeq : assembledLines required original = (match (keptLines original).getLast? with
        | some lastLine =>
          if trim lastLine ≠ [] then keptLines original ++ [[]] else keptLines original
        | none => keptLines original)
        ++ ("# added by eenv".toList :: missingPats required original) := by
      rw [assembledLines, if_neg hM0]
    have hAmem : ∀ l ∈ assembledLines required original,
        l ∈ keptLines original ∨ l = [] ∨ l = "# added by eenv".toList
          ∨ l ∈ missingPats required original := by
      intro l hl
      rw [hAeq] at hl
      rcases List.mem_append.mp hl with h | h
      · rcases hpre l h with h2 | h2
        · exact Or.inl h2
        · exact Or.inr (Or.inl h2)
      · rcases List.mem_cons.mp h with h2 | h2
        · exact Or.inr (Or.inr (Or.inl h2))
        · exact Or.inr (Or.inr (Or.inr h2))
    have hAkeep : ∀ l ∈ assembledLines required original, keepLine l = true := by
      intro l hl
      rcases hAmem l hl with h | h | h | h
      · exact hL1keep l h
      · subst h
        exact blank_keep
      · subst h
        exact header_keep
      · exact hreqK l (hMsub l h)
    have hAnl : ∀ l ∈ assembledLines required original, ¬ '\n' ∈ l := by
      intro l hl
      rcases hAmem l hl with h | h | h | h
      · exact hL1nl l h
      · subst h
        simp
      · subst h
        exact header_no_nl
      · exact hreqN l (hMsub l h)
    have hAcr : ∀ l ∈ assembledLines required original, ¬ l.getLast? = some '\x0d' := by
      intro l hl
      rcases hAmem l hl with h | h | h | h
      · exact hL1cr l h
      · subst h
        simp
      · subst h
        exact header_no_cr
      · exact core_getLast_not_cr l (hreqC l (hMsub l h))
    have hAlast : (assembledLines required original).getLast? = some m := by
      rw [hAeq, List.getLast?_append_of_ne_nil _ (by simp),
        show ("# added by eenv".toList :: missingPats required original)
          = ["# added by eenv".toList] ++ missingPats required original from rfl,
        List.getLast?_append_of_ne_nil _ hM0]
      exact hmlast
    have hAne : ¬ assembledLines required original = [] := by
      intro hx
      rw [hx] at hAlast
      cases hAlast
    have hmne : ¬ m = [] := hreqE m hmreq
    have hlines1 : linesOf (joinNl (assembledLines required original))
        = assembledLines required original :=
      linesOf_joinNl_of_last_ne_nil _ m hAne hAlast hmne hAnl hAcr
    refine fix_core_fixpoint required _ (assembledLines required original) hlines1 hAkeep ?_ rfl
    have hkeptT : keptLines (joinNl (assembledLines required original))
        = assembledLines required original := by
      rw [keptLines, hlines1, List.filter_eq_self.mpr hAkeep]
    rw [missingPats, hkeptT]
    refine List.filter_eq_nil_iff.mpr (fun r hr => ?_)
    have hrcore : r ∈ (assembledLines required original).map pattern_core := by
      by_cases hrE : r ∈ (keptLines original).map pattern_core
      · obtain ⟨l, hlmem, hlcore⟩ := List.mem_map.mp hrE
        refine List.mem_map.mpr ⟨l, ?_, hlcore⟩
        rw [hAeq]
        exact List.mem_append_left _ (hpre_sub l hlmem)
      · have hrM : r ∈ missingPats required original := by
          rw [missingPats]
          refine List.mem_filter.mpr ⟨hr, ?_⟩
          simpa using hrE
        refine List.mem_map.mpr ⟨r, ?_, hreqC r hr⟩
        rw [hAeq]
        exact List.mem_append_right _ (List.mem_cons_of_mem _ hrM)
    simp [hrcore]

/-- Character-level facts about the banned patterns. -/
theorem banned_facts : ∀ b ∈ bannedList, (¬ '\\' ∈ b) ∧ (¬ ' ' ∈ b) ∧ (¬ '/' ∈ b) ∧
    ¬ b = [] ∧ (List.isSuffixOf (".example".toList) b = true ∨
      List.isSuffixOf (".enc".toList) b = true) := by decide

/-- Space escaping is the identity whenever its output is backslash-free. -/
theorem escapeSpaces_eq_of_no_backslash : ∀ (s r : List Char), escapeSpaces s = r →
    ¬ '\\' ∈ r → s = r
  | [], _, h, _ => h
  | c :: s, r, h, hb => by
    rw [escapeSpaces, List.flatMap_cons] at h
    by_cases hc : c = ' '
    · rw [if_pos hc] at h
      exact absurd (by rw [← h]; exact List.mem_cons_self _ _) hb
    · rw [if_neg hc] at h
      rw [List.cons_append, List.nil_append] at h
      subst h
      have := escapeSpaces_eq_of_no_backslash s (escapeSpaces s) rfl
        (fun hx => hb (List.mem_cons_of_mem _ hx))
      show c :: s = c :: escapeSpaces s
      rw [← this]

/-- Slash normalization is the identity whenever its output is slash-free. -/
theorem slashMap_eq_of_no_slash : ∀ (s r : List Char), slashMap s = r → ¬ '/' ∈ r → s = r
  | [], _, h, _ => h
  | c :: s, r, h, hs => by
    rw [slashMap, List.map_cons] at h
    by_cases hc : c = '\\'
    · rw [if_pos hc] at h
      exact absurd (by rw [← h]; exact List.mem_cons_self _ _) hs
    · rw [if_neg hc] at h
      subst h
      have := slashMap_eq_of_no_slash s (slashMap s) rfl
        (fun hx => hs (List.mem_cons_of_mem _ hx))
      show c :: s = c :: slashMap s
      rw [← this]

/-- A prefix all of whose characters satisfy the predicate is a prefix of
the `takeWhile`. -/
theorem IsPrefix_takeWhile (p : Char → Bool) : ∀ (l₁ l₂ : List Char), l₁ <+: l₂ →
    (∀ c ∈ l₁, p c = true) → l₁ <+: l₂.takeWhile p
  | [], l₂, _, _ => List.nil_prefix
  | c :: l₁, l₂, h, hall => by
    obtain ⟨t, rfl⟩ := h
    rw [List.cons_append, List.takeWhile_cons, if_pos (hall c (List.mem_cons_self c l₁))]
    exact List.cons_prefix_cons.mpr ⟨rfl,
      IsPrefix_takeWhile p l₁ (l₁ ++ t) (List.prefix_append l₁ t)
        (fun a ha => hall a (List.mem_cons_of_mem c ha))⟩

/-- A nonempty slash-free suffix of a path is a suffix of its file name. -/
theorem suffix_fileName (s t : List Char) (hsuf : s <:+ t) (hns : ¬ '/' ∈ s) :
    s <:+ fileName t := by
  have h1 : s.reverse <+: t.reverse := List.reverse_prefix.mpr hsuf
  have h2 : s.reverse <+: t.reverse.takeWhile (fun c => decide (¬ c = '/')) :=
    IsPrefix_takeWhile _ s.reverse t.reverse h1
      (fun c hc => by
        rw [decide_eq_true_iff]
        intro hx
        subst hx
        exact hns (List.mem_reverse.mp hc))
  have h3 : s.reverse
      <+: ((t.reverse.takeWhile (fun c => decide (¬ c = '/'))).reverse).reverse := by
    rwa [List.reverse_reverse]
  exact List.reverse_prefix.mp h3

/-- Members of the per-file pattern list come from a non-skipped file. -/
theorem mem_requiredPats (root : List Char) : ∀ (files : List (List Char)) (r : List Char),
    r ∈ requiredPats root files → ∃ f ∈ files,
      endsWith (fileName f) (".example".toList) = false ∧
      endsWith (fileName f) (".enc".toList) = false ∧
      to_gitignore_rel_pattern root f = some r
  | [], r, h => by cases h
  | abs :: rest, r, h => by
    rw [requiredPats] at h
    by_cases hskip : endsWith (fileName abs) (".example".toList) = true
        ∨ endsWith (fileName abs) (".enc".toList) = true
    · rw [if_pos hskip] at h
      obtain ⟨f, hf, h1, h2, h3⟩ := mem_requiredPats root rest r h
      exact ⟨f, List.mem_cons_of_mem _ hf, h1, h2, h3⟩
    · rw [if_neg hskip] at h
      have hskip2 := not_or.mp hskip
      rcases hpat : to_gitignore_rel_pattern root abs with _ | pat
      · rw [hpat] at h
        obtain ⟨f, hf, h1, h2, h3⟩ := mem_requiredPats root rest r h
        exact ⟨f, List.mem_cons_of_mem _ hf, h1, h2, h3⟩
      · rw [hpat] at h
        rcases List.mem_cons.mp h with h2 | h2
        · subst h2
          exact ⟨abs, List.mem_cons_self _ _, Bool.eq_false_iff.mpr hskip2.1,
            Bool.eq_false_iff.mpr hskip2.2, hpat⟩
        · obtain ⟨f, hf, h1a, h2a, h3a⟩ := mem_requiredPats root rest r h2
          exact ⟨f, List.mem_cons_of_mem _ hf, h1a, h2a, h3a⟩

/-- Nonempty space escaping yields a nonempty result. -/
theorem escapeSpaces_eq_nil (s : List Char) (h : escapeSpaces s = []) : s = [] := by
  cases s with
  | nil => rfl
  | cons c cs =>
    exfalso
    by_cases hc : c = ' ' <;> simp [escapeSpaces, hc] at h

/-- Every member of the required pattern set is nonempty. -/
theorem requiredSet_ne_nil_elem (root : List Char) (files : List (List Char)) (r : List Char)
    (h : r ∈ requiredSet root files) : ¬ r = [] := by
  intro hr
  subst hr
  rw [requiredSet, mem_dedupList, mem_sortPaths] at h
  rcases List.mem_cons.mp h with h1 | h1
  · exact absurd h1 (by decide)
  · obtain ⟨f, _, _, _, hpat⟩ := mem_requiredPats root files [] h1
    rw [to_gitignore_rel_pattern] at hpat
    by_cases hroot : List.isPrefixOf root f = true
    · rw [if_pos hroot] at hpat
      injection hpat with hpat
      by_cases hrel : slashMap ((f.drop root.length).dropWhile (fun c => decide (c = '/'))) = []
      · rw [if_pos hrel] at hpat
        cases hpat
      · rw [if_neg hrel] at hpat
        exact hrel (escapeSpaces_eq_nil _ hpat)
    · rw [if_neg hroot] at hpat
      cases hpat

/-- No member of the required pattern set is a banned pattern: banned
patterns end in `.example` or `.enc`, and files with such names are
excluded from the pattern collection. -/
theorem requiredSet_not_banned (root : List Char) (files : List (List Char)) (r : List Char)
    (h : r ∈ requiredSet root files) : ¬ r ∈ bannedList := by
  intro hb
  rw [requiredSet, mem_dedupList, mem_sortPaths] at h
  rcases List.mem_cons.mp h with h1 | h1
  · subst h1
    exact absurd hb (by decide)
  · obtain ⟨f, _, hex, henc, hpat⟩ := mem_requiredPats root files r h1
    obtain ⟨hnb, _, hns, _, hsufx⟩ := banned_facts r hb
    rw [to_gitignore_rel_pattern] at hpat
    by_cases hroot : List.isPrefixOf root f = true
    · rw [if_pos hroot] at hpat
      injection hpat with hpat
      by_cases hrel : slashMap ((f.drop root.length).dropWhile (fun c => decide (c = '/'))) = []
      · rw [if_pos hrel] at hpat
        exact hns (by rw [← hpat]; exact List.mem_cons_self _ _)
      · rw [if_neg hrel] at hpat
        have h2 : slashMap ((f.drop root.length).dropWhile (fun c => decide (c = '/'))) = r :=
          escapeSpaces_eq_of_no_backslash _ r hpat hnb
        have h3 : (f.drop root.length).dropWhile (fun c => decide (c = '/')) = r :=
          slashMap_eq_of_no_slash _ r h2 hns
        have hsuffix : r <:+ f := by
          rw [← h3]
          exact (List.dropWhile_suffix _).trans (List.drop_suffix _ _)
        have hsufName : r <:+ fileName f := suffix_fileName r f hsuffix hns
        rcases hsufx with hs | hs
        · have hcontra : endsWith (fileName f) (".example".toList) = true :=
            List.isSuffixOf_iff_suffix.mpr
              ((List.isSuffixOf_iff_suffix.mp hs).trans hsufName)
          rw [hcontra] at hex
          cases hex
        · have hcontra : endsWith (fileName f) (".enc".toList) = true :=
            List.isSuffixOf_iff_suffix.mpr
              ((List.isSuffixOf_iff_suffix.mp hs).trans hsufName)
          rw [hcontra] at henc
          cases henc
    · rw [if_neg hroot] at hpat
      cases hpat

/-- C7 counterexample: on the initial ignore-file content
`"eenv.config.json\n\n\n"` (no discovered files) the second reconciliation
run still reports `changed = true` — each run strips one trailing newline. -/
theorem c7_counterexample :
    (fix_gitignore_from_found ("/r".toList) []
      ((fix_gitignore_from_found ("/r".toList) []
        ("eenv.config.json\n\n\n".toList)).newText)).changed = true := by
  decide

/-- C7 amended: gitignore reconciliation is idempotent — the second run
reports `changed = false` with empty `added` and `removed` — provided every
required pattern equals its own pattern core and contains no newline, no
line of the initial content ends in a carriage return not followed by a
newline, and the kept lines of the initial content do not end in two
consecutive blank lines. -/
theorem c7_reconcile_idempotent_amended (root : List Char) (files : List (List Char))
    (original : List Char)
    (hreq : ∀ r ∈ requiredSet root files, pattern_core r = r ∧ ¬ '\n' ∈ r)
    (horig : ∀ l ∈ linesOf original, ¬ l.getLast? = some '\x0d')
    (htail : ¬ ((keptLines original).getLast? = some [] ∧
                ((keptLines original).dropLast).getLast? = some [])) :
    (fix_gitignore_from_found root files
        ((fix_gitignore_from_found root files original).newText)).changed = false ∧
    (fix_gitignore_from_found root files
        ((fix_gitignore_from_found root files original).newText)).added = [] ∧
    (fix_gitignore_from_found root files
        ((fix_gitignore_from_found root files original).newText)).removed = [] :=
  fix_gitignore_core_idempotent (requiredSet root files) original
    (fun r hr => keepLine_of_core r (hreq r hr).1 (requiredSet_not_banned root files r hr))
    (fun r hr => (hreq r hr).1)
    (fun r hr => (hreq r hr).2)
    (fun r hr => requiredSet_ne_nil_elem root files r hr)
    horig htail

/-- Closed instance of the amended C7: an empty ignore file and one
discovered `.env` file; the first run adds the patterns, the second run
reports no change. -/
theorem c7_reconcile_idempotent_amended_witness :
    (fix_gitignore_from_found ("/r".toList) [("/r/.env".toList)]
        ((fix_gitignore_from_found ("/r".toList) [("/r/.env".toList)] []).newText)).changed
        = false ∧
    (fix_gitignore_from_found ("/r".toList) [("/r/.env".toList)]
        ((fix_gitignore_from_found ("/r".toList) [("/r/.env".toList)] []).newText)).added
        = [] ∧
    (fix_gitignore_from_found ("/r".toList) [("/r/.env".toList)]
        ((fix_gitignore_from_found ("/r".toList) [("/r/.env".toList)] []).newText)).removed
        = [] :=
  c7_reconcile_idempotent_amended ("/r".toList) [("/r/.env".toList)] []
    (by decide) (by decide) (by decide)

end Eenv
